import Mathlib

/-!
# Verification of the Supervillain mail client core

Shallow embedding of `src/static/app.js` (sync & cache engine, content
sanitizer) and `src/static/mobile/jmap.js` (protocol client), together with
proofs of the testable properties stated in the specification.

The sanitizer works on a detached DOM tree (`DOMParser` output); we embed it
as a tree transformation on a `Node` type.  JavaScript strings are embedded
as `List Char` with explicit models of `trim`, `toLowerCase`, `split`,
`startsWith`, `includes` and of the concrete regular expressions the code
uses.  The engine's mutable `state` object is a record, and each code path
(optimistic part, success continuation, failure continuation) is a function
on that record, mirroring the single-threaded continuation-step semantics.
-/

namespace Supervillain

/-! ## JavaScript string primitives, over `List Char` -/

/-- `String.prototype.toLowerCase`, charwise (ASCII-faithful). -/
def toLowerL (cs : List Char) : List Char := cs.map Char.toLower

def toLowerS (s : String) : String := ⟨toLowerL s.data⟩

/-- Left half of `String.prototype.trim`. -/
def jsTrimLeft (cs : List Char) : List Char := cs.dropWhile Char.isWhitespace

/-- Right half of `String.prototype.trim`. -/
def jsTrimRight (cs : List Char) : List Char := (cs.reverse.dropWhile Char.isWhitespace).reverse

/-- `String.prototype.trim`. -/
def jsTrim (cs : List Char) : List Char := jsTrimRight (jsTrimLeft cs)

/-- `String.prototype.split(sep)` for a one-character separator: the JS form
`''.split(';') = ['']`, `'a;'.split(';') = ['a','']` is matched. -/
def splitOnCharL (sep : Char) : List Char → List (List Char)
  | [] => [[]]
  | c :: rest =>
    if c = sep then [] :: splitOnCharL sep rest
    else
      match splitOnCharL sep rest with
      | [] => [[c]]
      | d :: ds => (c :: d) :: ds

/-- `s.startsWith(p)` (arguments: the prefix first, then the string). -/
def startsWithL (p cs : List Char) : Bool := decide (p <+: cs)

/-- `s.startsWith(p)`. -/
def startsWithS (s p : String) : Bool := startsWithL p.data s.data

/-- `s.includes(pat)` (arguments: the pattern first, then the string). -/
def includesL (pat cs : List Char) : Bool := decide (pat <:+: cs)

/-- `s.includes(pat)`. -/
def includesS (s pat : String) : Bool := includesL pat.data s.data

/-- The characters `{` and `}` (kept out of literals). -/
def lbrace : Char := '\x7b'

def rbrace : Char := '\x7d'

/-! ## `stripColorStyles` (app.js:1730-1743) -/

/-- The `colorProps` array of `stripColorStyles`. -/
def colorProps : List String :=
  ["color", "background", "background-color", "background-image",
   "outline-color", "text-decoration-color", "text-shadow", "box-shadow"]

/-- `d.split(':')[0]?.trim().toLowerCase()` of a declaration. -/
def propNameOf (d : List Char) : List Char :=
  toLowerL (jsTrim (d.takeWhile (· ≠ ':')))

/-- The filter predicate of `stripColorStyles`: keep a declaration if it is
nonempty, its property name is nonempty, and the property name is neither a
`colorProps` entry nor an entry followed by `-`. -/
def keepDecl (d : List Char) : Bool :=
  !d.isEmpty &&
    (let p := propNameOf d
     !p.isEmpty && !(colorProps.any fun cp => p == cp.data || startsWithL (cp.data ++ ['-']) p))

def stripColorStylesL (cs : List Char) : List Char :=
  List.intercalate [';', ' '] (((splitOnCharL ';' cs).map jsTrim).filter keepDecl)

/-- `stripColorStyles(styleString)`: split on `;`, trim, drop empty and
color-related declarations, re-join with `; `. -/
def stripColorStyles (s : String) : String := ⟨stripColorStylesL s.data⟩

/-! ## `sanitizeStyleContent` (app.js:1745-1759)

Each statement of the function is a global case-insensitive regex replace by
the empty string.  Every one of the six concrete regexes is embedded as a
matcher (`List Char → Option (List Char)`: given the text at the current
position, if the regex matches here return the remainder after the match)
driven by a left-to-right scanner, exactly the semantics of
`String.prototype.replace` with a `g` flag. -/

/-- JS `\w`. -/
def isWordChar (c : Char) : Bool := c.isAlphanum || c = '_'

/-- Case-insensitive literal match; returns the remainder after the literal. -/
def matchCI : List Char → List Char → Option (List Char)
  | [], cs => some cs
  | _ :: _, [] => none
  | p :: ps, c :: cs => if c.toLower = p.toLower then matchCI ps cs else none

/-- One global replace-by-empty pass, leftmost-first, resuming after each
match; fuel bounds the recursion (callers pass the text length, enough since
every matcher consumes at least one character). -/
def scanReplace (f : List Char → Option (List Char)) : Nat → List Char → List Char
  | 0, cs => cs
  | _ + 1, [] => []
  | fuel + 1, c :: rest =>
    match f (c :: rest) with
    | some r => scanReplace f fuel r
    | none => c :: scanReplace f fuel rest

def runReplace (f : List Char → Option (List Char)) (cs : List Char) : List Char :=
  scanReplace f cs.length cs

/-- Regex `@import\b[^;]*;?` (case-insensitive). -/
def importMatch (cs : List Char) : Option (List Char) :=
  match matchCI "@import".data cs with
  | none => none
  | some r =>
    if (r.head?.map isWordChar).getD false then none
    else
      match r.dropWhile (· ≠ ';') with
      | ';' :: r2 => some r2
      | r1 => some r1

/-- Regex `@font-face\s*\{[^}]*\}` (case-insensitive). -/
def fontFaceMatch (cs : List Char) : Option (List Char) :=
  match matchCI "@font-face".data cs with
  | none => none
  | some r =>
    match r.dropWhile Char.isWhitespace with
    | c :: r2 =>
      if c = lbrace then
        match r2.dropWhile (· ≠ rbrace) with
        | c2 :: r3 => if c2 = rbrace then some r3 else none
        | [] => none
      else none
    | [] => none

/-- Shared tail of `url\s*\([^)]*\)` and `expression\s*\([^)]*\)`. -/
def parenBodyMatch (r : List Char) : Option (List Char) :=
  match r.dropWhile Char.isWhitespace with
  | '(' :: r2 =>
    match r2.dropWhile (· ≠ ')') with
    | ')' :: r3 => some r3
    | _ => none
  | _ => none

def urlMatch (cs : List Char) : Option (List Char) :=
  (matchCI "url".data cs).bind parenBodyMatch

def expressionMatch (cs : List Char) : Option (List Char) :=
  (matchCI "expression".data cs).bind parenBodyMatch

/-- Shared tail of `-moz-binding\s*:[^;]+;?` and `behavior\s*:[^;]+;?`. -/
def colonBodyMatch (r : List Char) : Option (List Char) :=
  match r.dropWhile Char.isWhitespace with
  | ':' :: r2 =>
    if (r2.takeWhile (· ≠ ';')).isEmpty then none
    else
      match r2.dropWhile (· ≠ ';') with
      | ';' :: r3 => some r3
      | r3 => some r3
  | _ => none

def mozBindingMatch (cs : List Char) : Option (List Char) :=
  (matchCI "-moz-binding".data cs).bind colonBodyMatch

def behaviorMatch (cs : List Char) : Option (List Char) :=
  (matchCI "behavior".data cs).bind colonBodyMatch

/-- `sanitizeStyleContent(css)`: the six replaces, in source order. -/
def sanitizeStyleContent (css : String) : String :=
  ⟨runReplace behaviorMatch
    (runReplace mozBindingMatch
      (runReplace expressionMatch
        (runReplace urlMatch
          (runReplace fontFaceMatch
            (runReplace importMatch css.data)))))⟩

/-! ## `scopeStyleToEmailBody` (app.js:1761-1776)

Regex `([^{}@]+)\{` with a replacement callback.  A match is a nonempty run
of characters other than `{`, `}`, `@` immediately followed by `{`; the
callback splits the run on commas, trims, drops empties, prefixes each
selector with `#email-body ` and re-joins. -/

/-- The replacement callback (applied to the selector run of a match). -/
def scopeSelectors (run : List Char) : List Char :=
  if startsWithL ['@'] (jsTrim run) then run ++ [lbrace]
  else
    List.intercalate [',', ' ']
        ((((splitOnCharL ',' run).map jsTrim).filter (fun s => !s.isEmpty)).map
          (fun s => "#email-body ".data ++ s)) ++ [' ', lbrace]

/-- Scanner for the scoping regex: `run` is the pending `[^{}@]*` run. -/
def scopeGo : Nat → List Char → List Char → List Char
  | 0, run, cs => run ++ cs
  | _ + 1, run, [] => run
  | fuel + 1, run, c :: rest =>
    if c = lbrace then
      if run.isEmpty then lbrace :: scopeGo fuel [] rest
      else scopeSelectors run ++ scopeGo fuel [] rest
    else if c = rbrace ∨ c = '@' then run ++ c :: scopeGo fuel [] rest
    else scopeGo fuel (run ++ [c]) rest

def scopeStyleToEmailBody (css : String) : String := ⟨scopeGo css.data.length [] css.data⟩

/-! ## The DOM tree and `sanitizeHtml` (app.js:1778-1843) -/

structure DomAttr where
  name : String
  value : String
deriving DecidableEq

/-- A node of the detached document produced by `DOMParser`. -/
inductive Node where
  | text (s : String)
  | elem (tag : String) (attrs : List DomAttr) (children : List Node)

/-- The `dangerousTags` array of `sanitizeHtml`. -/
def dangerousTags : List String :=
  ["script", "iframe", "object", "embed", "form", "input", "button", "meta", "base", "link",
   "svg", "math"]

/-- URL-bearing attribute names checked by `sanitizeHtml`. -/
def urlAttrNames : List String := ["href", "src", "action", "xlink:href", "formaction"]

/-- The two scheme checks of the `href/src/action` branch, on the lowercased
value: `javascript:`/`vbscript:`, and `data:` other than `data:image/`. -/
def badUrlValue (value : String) : Bool :=
  startsWithS value "javascript:" || startsWithS value "vbscript:" ||
    (startsWithS value "data:" && !startsWithS value "data:image/")

/-- The per-attribute body of the `attrs.forEach` loop: `none` means the
attribute is removed, `some` gives the attribute as stored afterwards. -/
def sanitizeAttr (a : DomAttr) : Option DomAttr :=
  let name := toLowerS a.name
  let value := toLowerS a.value
  if startsWithS name "on" then none
  else if urlAttrNames.contains name && badUrlValue value then none
  else if name = "style" then
    if includesS value "expression" || includesS value "javascript" then none
    else
      let cleaned := stripColorStyles a.value
      if cleaned = "" then none else some ⟨"style", cleaned⟩
  else some a

/-- Per-element attribute processing: the unconditional `bgcolor`/`color`
removal, then the `forEach` over the remaining attributes. -/
def sanitizeAttrs (attrs : List DomAttr) : List DomAttr :=
  (attrs.filter fun a => !(toLowerS a.name == "bgcolor") && !(toLowerS a.name == "color")).filterMap
    sanitizeAttr

/-- Pass 1: `dangerousTags.forEach(tag => querySelectorAll(tag).remove())` —
every element with a dangerous tag is removed with its whole subtree. -/
def removeDangerous : List Node → List Node
  | [] => []
  | .text s :: rest => .text s :: removeDangerous rest
  | .elem t a c :: rest =>
    if dangerousTags.contains t then removeDangerous rest
    else .elem t a (removeDangerous c) :: removeDangerous rest

/-- `el.textContent` read: concatenated text of the subtree, in order. -/
def textContentOf : List Node → String
  | [] => ""
  | .text s :: rest => s ++ textContentOf rest
  | .elem _ _ c :: rest => textContentOf c ++ textContentOf rest

/-- Pass 2: each `<style>` element's text becomes
`scopeStyleToEmailBody(sanitizeStyleContent(textContent))` (a `textContent`
write replaces the children with a single text node). -/
def rewriteStyleElems : List Node → List Node
  | [] => []
  | .text s :: rest => .text s :: rewriteStyleElems rest
  | .elem t a c :: rest =>
    if t == "style" then
      .elem t a [.text (scopeStyleToEmailBody (sanitizeStyleContent (textContentOf c)))] ::
        rewriteStyleElems rest
    else .elem t a (rewriteStyleElems c) :: rewriteStyleElems rest

/-- Pass 3: `querySelectorAll('*')` with `sanitizeAttrs` on each element. -/
def sanitizeAllAttrs : List Node → List Node
  | [] => []
  | .text s :: rest => .text s :: sanitizeAllAttrs rest
  | .elem t a c :: rest => .elem t (sanitizeAttrs a) (sanitizeAllAttrs c) :: sanitizeAllAttrs rest

/-- `el.setAttribute(n, v)`: replace in place if present, else append. -/
def setAttr (attrs : List DomAttr) (n v : String) : List DomAttr :=
  if attrs.any (fun a => a.name == n) then
    attrs.map fun a => if a.name == n then ⟨n, v⟩ else a
  else attrs ++ [⟨n, v⟩]

/-- Pass 4: `querySelectorAll('a[href]')` gets `target="_blank"` and
`rel="noopener noreferrer"`. -/
def retargetLinks : List Node → List Node
  | [] => []
  | .text s :: rest => .text s :: retargetLinks rest
  | .elem t a c :: rest =>
    let a' := if t == "a" && a.any (fun x => x.name == "href") then
        setAttr (setAttr a "target" "_blank") "rel" "noopener noreferrer"
      else a
    .elem t a' (retargetLinks c) :: retargetLinks rest

/-- `sanitizeHtml`, as the composition of its four passes over the parsed
document; the input/output strings of the JS function correspond to the
parsed/serialized child list of `doc.body`. -/
def sanitizeHtml (ns : List Node) : List Node :=
  retargetLinks (sanitizeAllAttrs (rewriteStyleElems (removeDangerous ns)))

/-- Safety of one attribute, as claimed of the sanitizer's output: the name
is not an event handler, and a URL-bearing attribute has no script-executing
or non-image `data:` scheme value. -/
def attrSafe (a : DomAttr) : Bool :=
  !startsWithS (toLowerS a.name) "on" &&
    (!(urlAttrNames.contains (toLowerS a.name)) || !badUrlValue (toLowerS a.value))

/-- Safety of a whole tree: no dangerous-tag element anywhere, and every
attribute of every element is `attrSafe`. -/
def nodesSafe : List Node → Bool
  | [] => true
  | .text _ :: rest => nodesSafe rest
  | .elem t a c :: rest =>
    !(dangerousTags.contains t) && a.all attrSafe && nodesSafe c && nodesSafe rest

/-- No `<style>` element anywhere in the tree. -/
def noStyleElems : List Node → Bool
  | [] => true
  | .text _ :: rest => noStyleElems rest
  | .elem t _ c :: rest => !(t == "style") && noStyleElems c && noStyleElems rest

/-- Observation used to separate trees: the text of every `<style>` element,
in document order. -/
def styleTexts : List Node → List String
  | [] => []
  | .text _ :: rest => styleTexts rest
  | .elem t _ c :: rest =>
    if t == "style" then textContentOf c :: styleTexts rest
    else styleTexts c ++ styleTexts rest

/-! ## The sync & cache engine (app.js `state` object and its mutators)

`state` is the single mutable global of app.js; `AppState` carries the
fields the verified operations touch.  The per-split counts map is
collapsed to its `all` entry (`adjustSplitCounts` updates every present
entry by the same delta, so one representative count captures the
behavior).  DOM rendering calls (`renderEmailList`, `showStatus`, toast
handling) have no engine state and are dropped. -/

structure EmailAddress where
  name : Option String
  email : String
deriving DecidableEq

/-- An `EmailSummary` as the list cache holds it. -/
structure Email where
  id : String
  «from» : List EmailAddress
  receivedAt : Nat
  isUnread : Bool
  isFlagged : Bool
deriving DecidableEq

/-- The object pushed by `pushUndo` (app.js:1630-1641). -/
structure UndoEntry where
  action : String
  emailId : String
  emailData : Option Email
  insertIndex : Int
  timestamp : Nat
deriving DecidableEq

structure Mailbox where
  id : String
  role : String
deriving DecidableEq

structure AppState where
  emails : List Email
  selectedIndex : Int
  undoStack : List UndoEntry
  splitCountAll : Option Int
  mailboxes : List Mailbox
  currentMailboxId : String
  currentEmail : Option Email
  emailCache : List (String × Email)

/-- `adjustSplitCounts(delta)` (app.js:254-260), on the collapsed count. -/
def adjustSplitCounts (st : AppState) (delta : Int) : AppState :=
  { st with splitCountAll := st.splitCountAll.map (· + delta) }

/-- `pushUndo(action, emailId, emailData, insertIndex)` (app.js:1630-1641);
`timestamp` is the caller-supplied clock reading (`Date.now()`). -/
def pushUndo (st : AppState) (action emailId : String) (emailData : Option Email)
    (insertIndex : Int) (now : Nat) : AppState :=
  { st with undoStack := st.undoStack ++ [⟨action, emailId, emailData, insertIndex, now⟩] }

/-- `removeEmailFromList(emailId)` (app.js:1200-1208): filter out the id and
clamp the selection (the trailing `maybeRefillEmails()` is the asynchronous
trigger modeled by `refillApply` below). -/
def removeEmailFromList (st : AppState) (emailId : String) : AppState :=
  let emails := st.emails.filter fun e => !(e.id == emailId)
  let sel :=
    if st.selectedIndex ≥ (emails.length : Int) then max 0 ((emails.length : Int) - 1)
    else st.selectedIndex
  { st with emails := emails, selectedIndex := sel }

/-- `state.emails.indexOf(removedEmail)` where
`removedEmail = state.emails.find(e => e.id === emailId)`: the index of the
first email with this id, `-1` if there is none. -/
def removedIndexOf (emails : List Email) (emailId : String) : Int :=
  match emails.find? (fun e => e.id == emailId) with
  | none => -1
  | some _ => (emails.findIdx fun e => e.id == emailId : Nat)

/-- The optimistic part of `emailAction(type, emailId)` (app.js:492-501):
push the undo entry, remove the email, decrement the counts. -/
def emailActionApply (st : AppState) (actionLabel emailId : String) (now : Nat) : AppState :=
  let removedEmail := st.emails.find? fun e => e.id == emailId
  let removedIndex := removedIndexOf st.emails emailId
  let st1 := pushUndo st actionLabel emailId removedEmail removedIndex now
  let st2 := removeEmailFromList st1 emailId
  adjustSplitCounts st2 (-1)

/-- `list.splice(start, 0, x)` with JavaScript index normalization. -/
def jsSpliceInsert (l : List Email) (start : Int) (x : Email) : List Email :=
  let s : Nat :=
    if start < 0 then (max ((l.length : Int) + start) 0).toNat
    else min start.toNat l.length
  l.take s ++ x :: l.drop s

/-- `emailAction` when the protocol call rejects (app.js:492-516): the
optimistic part followed by the `catch` block (pop the stale undo entry,
splice the removed email back at its original index, restore the counts). -/
def emailActionFail (st : AppState) (actionLabel emailId : String) (now : Nat) : AppState :=
  let removedEmail := st.emails.find? fun e => e.id == emailId
  let removedIndex := removedIndexOf st.emails emailId
  let st1 := emailActionApply st actionLabel emailId now
  let st2 := { st1 with undoStack := st1.undoStack.dropLast }
  let st3 :=
    match removedEmail with
    | some e => { st2 with emails := jsSpliceInsert st2.emails removedIndex e }
    | none => st2
  adjustSplitCounts st3 1

/-- The optimistic part of `performUndo()` (app.js:1643-1658): pop the last
undo entry, splice its email back at `min(insertIndex, length)`, select it,
bump the counts.  This is the state in which the server move is issued. -/
def performUndoOptimistic (st : AppState) : AppState :=
  match st.undoStack.getLast? with
  | none => st
  | some item =>
    let st1 := { st with undoStack := st.undoStack.dropLast }
    let st2 :=
      match item.emailData with
      | some e =>
        let idx := min item.insertIndex (st1.emails.length : Int)
        { st1 with emails := jsSpliceInsert st1.emails idx e, selectedIndex := idx }
      | none => st1
    adjustSplitCounts st2 1

/-- `performUndo()` when the server move succeeds. -/
def performUndoOk (st : AppState) : AppState := performUndoOptimistic st

/-- The mailbox id `performUndo` moves the email to:
`state.mailboxes.find(m => m.role === 'inbox')` (app.js:1661-1663). -/
def undoMoveTarget (st : AppState) : Option String :=
  (st.mailboxes.find? fun m => m.role == "inbox").map (·.id)

/-- `performUndo()` when the server move rejects (app.js:1643-1675): the
optimistic part followed by the `catch` block (filter the reinserted email
back out, undo the count bump). -/
def performUndoFail (st : AppState) : AppState :=
  match st.undoStack.getLast? with
  | none => st
  | some item =>
    let st2 := performUndoOptimistic st
    let st3 :=
      match item.emailData with
      | some _ => { st2 with emails := st2.emails.filter fun e => !(e.id == item.emailId) }
      | none => st2
    adjustSplitCounts st3 (-1)

/-- The cache update of `maybeRefillEmails` (app.js:400-406): keep only the
fetched emails whose id is not already present and append them. -/
def refillApply (emails fresh : List Email) : List Email :=
  let existingIds := emails.map (·.id)
  emails ++ fresh.filter fun e => !(existingIds.contains e.id)

/-- The successful completion of `loadEmails()` (app.js:376-377). -/
def loadEmailsOk (st : AppState) (fetched : List Email) : AppState :=
  { st with emails := fetched, selectedIndex := 0 }

/-- `moveSelection(delta)` (app.js:1054-1074), state part. -/
def moveSelection (st : AppState) (delta : Int) : AppState :=
  let newIndex := st.selectedIndex + delta
  if newIndex < 0 ∨ newIndex ≥ (st.emails.length : Int) then st
  else { st with selectedIndex := newIndex }

/-- `e.from[0]?.email?.toLowerCase()`. -/
def senderKey (e : Email) : Option String := e.«from».head?.map fun a => toLowerS a.email

/-- The optimistic part of `unsubscribeAndArchiveAll()` (app.js:1151-1169):
resolve the sender of the given email, remove every email of that sender,
clamp the selection; also returns the removed batch the failure path keeps. -/
def unsubscribeApply (st : AppState) (emailId : String) : AppState × List Email :=
  let email :=
    match st.emails.find? (fun e => e.id == emailId) with
    | some e => some e
    | none => st.currentEmail
  match email.bind senderKey with
  | none => (st, [])
  | some s =>
    let removed := st.emails.filter fun e => senderKey e == some s
    let emails := st.emails.filter fun e => !(senderKey e == some s)
    let sel :=
      if st.selectedIndex ≥ (emails.length : Int) then max 0 ((emails.length : Int) - 1)
      else st.selectedIndex
    ({ st with emails := emails, selectedIndex := sel }, removed)

/-- The `sort((a, b) => new Date(b.receivedAt) - new Date(a.receivedAt))`
comparator: stable sort, received time descending. -/
def sortByReceivedDesc (l : List Email) : List Email :=
  l.mergeSort fun a b => Nat.ble b.receivedAt a.receivedAt

/-- The `catch` block of `unsubscribeAndArchiveAll` (app.js:1188-1197):
re-append the removed batch and re-sort by received time descending. -/
def unsubscribeFail (st : AppState) (removed : List Email) : AppState :=
  if removed.isEmpty then st
  else { st with emails := sortByReceivedDesc (st.emails ++ removed) }

/-- `emailCache[emailId] = email`. -/
def cacheInsert (cache : List (String × Email)) (k : String) (v : Email) :
    List (String × Email) :=
  if cache.any (fun p => p.1 == k) then cache.map fun p => if p.1 == k then (k, v) else p
  else cache ++ [(k, v)]

/-- The completion continuation of the detail fetch in `loadEmailDetail`
(app.js:440-447): always cache the result; re-render (and replace
`currentEmail`) only if the view still shows the fetched id.  The returned
Bool is whether `renderEmailDetail()` ran. -/
def onDetailFetched (st : AppState) (emailId : String) (email : Email) : AppState × Bool :=
  let st1 := { st with emailCache := cacheInsert st.emailCache emailId email }
  if st.currentEmail.map (·.id) == some emailId then
    ({ st1 with currentEmail := some email }, true)
  else (st1, false)

/-- The selection-bounds invariant claimed of the engine: 0 when the list is
empty, otherwise a valid index. -/
def selBounds (st : AppState) : Bool :=
  if st.emails.isEmpty then st.selectedIndex == 0
  else decide (0 ≤ st.selectedIndex) && decide (st.selectedIndex ≤ (st.emails.length : Int) - 1)

/-- Well-formedness of undo entries as `pushUndo` creates them from
`emailAction`: an entry carrying an email also carries a nonnegative index. -/
def wfUndoStack (st : AppState) : Bool :=
  st.undoStack.all fun it => it.emailData.isNone || decide (0 ≤ it.insertIndex)

/-! ## The protocol client (`src/static/mobile/jmap.js`) -/

structure Session where
  username : String
  token : String
  apiUrl : String
  accountId : String
  uploadUrl : Option String
  downloadUrl : Option String
deriving DecidableEq

/-- The two error classes jmap.js defines; `name` is the class name (the
`.name` property set by each constructor). -/
inductive JmapError where
  | authError (message : String)
  | networkError (message : String)
deriving DecidableEq

def JmapError.name : JmapError → String
  | .authError _ => "JmapAuthError"
  | .networkError _ => "JmapNetworkError"

/-- The fields `connect` reads from a parsed session body. -/
structure SessionBody where
  apiUrl : String
  primaryMailAccount : String
  uploadUrl : Option String
  downloadUrl : Option String
deriving DecidableEq

/-- Outcome of the `fetch` of the discovery endpoint: transport failure, or
an HTTP response with a status and a body that either parses (`some`) or is
malformed JSON (`none`). -/
inductive FetchOutcome where
  | transportFailure (message : String)
  | response (status : Nat) (parsedBody : Option SessionBody)
deriving DecidableEq

/-- `connect(username, token)` (jmap.js:70-102) as a function of the fetch
outcome; `resp.ok` is status 200-299 per the fetch specification. -/
def connect (username token : String) : FetchOutcome → Except JmapError Session
  | .transportFailure msg => .error (.networkError ("Network error: " ++ msg))
  | .response status parsedBody =>
    if status == 401 || status == 403 then .error (.authError "Invalid token")
    else if !(decide (200 ≤ status) && decide (status ≤ 299)) then
      .error (.networkError ("Connection failed (" ++ toString status ++ ")"))
    else
      match parsedBody with
      | none => .error (.networkError "Invalid JSON in session response")
      | some data =>
        .ok { username := username, token := token, apiUrl := data.apiUrl,
              accountId := data.primaryMailAccount, uploadUrl := data.uploadUrl,
              downloadUrl := data.downloadUrl }

/-! ## Derived notions used to state the verified properties -/

/-- `N` archive actions in order (each one succeeding on the server). -/
def archiveSeq (st : AppState) (label : String) (ids : List String) (now : Nat) : AppState :=
  ids.foldl (fun s i => emailActionApply s label i now) st

/-- `N` undos in order (each one succeeding on the server). -/
def undoSeq : Nat → AppState → AppState
  | 0, s => s
  | n + 1, s => performUndoOk (undoSeq n s)

/-- `emailCache[id]` read. -/
def cacheLookup (cache : List (String × Email)) (k : String) : Option Email :=
  (cache.find? fun p => p.1 == k).map (·.2)

/-- No dangerous-tag element anywhere in the tree. -/
def noDangerousElems : List Node → Bool
  | [] => true
  | .text _ :: rest => noDangerousElems rest
  | .elem t _ c :: rest =>
    !(dangerousTags.contains t) && noDangerousElems c && noDangerousElems rest

/-- An attribute the sanitizing pass leaves alone: rerunning `sanitizeAttr`
keeps it unchanged and the unconditional `bgcolor`/`color` removal does not
apply to it. -/
def attrFixed (a : DomAttr) : Bool :=
  (sanitizeAttr a == some a) && !(toLowerS a.name == "bgcolor") && !(toLowerS a.name == "color")

/-- Every attribute of every element of the tree is `attrFixed`. -/
def attrsSanitized : List Node → Bool
  | [] => true
  | .text _ :: rest => attrsSanitized rest
  | .elem _ a c :: rest => a.all attrFixed && attrsSanitized c && attrsSanitized rest

/-- The adversarial input of the idempotence counterexample: a `<style>`
block carrying one selector rule (parsed form of
`<style>p{color:red}</style>`). -/
def styleRuleDoc : List Node := [.elem "style" [] [.text "p\x7bcolor:red\x7d"]]

/-- Emails of the pagination example scenario (`queryEmailIds` returns
`[a,b,c]`, the cache already holds `[a,b]`). -/
def exEmailA : Email := ⟨"a", [⟨none, "a@example.com"⟩], 30, true, false⟩

def exEmailB : Email := ⟨"b", [⟨none, "b@example.com"⟩], 20, false, false⟩

def exEmailC : Email := ⟨"c", [⟨none, "c@example.com"⟩], 10, false, true⟩

/-- The declarations of an inline-style string: split on `;`, trimmed —
the observation under which `stripColorStyles` outputs are compared. -/
def declsOf (cs : List Char) : List (List Char) := (splitOnCharL ';' cs).map jsTrim

/-- A three-email inbox state used by the concrete witnesses. -/
def lifoDemo : AppState :=
  ⟨[exEmailA, exEmailB, exEmailC], 0, [], some 3, [⟨"m0", "inbox"⟩], "m0", none, []⟩

/-- A state in which the current view is the archive mailbox: an archive or
trash action taken here removes the email from the archive view, so that
view is the origin of the action. -/
def originScenario : AppState :=
  ⟨[⟨"e1", [⟨none, "s@example.com"⟩], 10, true, false⟩], 0, [], some 1,
   [⟨"mb-inbox", "inbox"⟩, ⟨"mb-archive", "archive"⟩], "mb-archive", none, []⟩

/-- A six-email state; archiving the last email records `insertIndex = 5`. -/
def sixEmailState : AppState :=
  ⟨[⟨"e0", [], 60, true, false⟩, ⟨"e1", [], 50, true, false⟩, ⟨"e2", [], 40, true, false⟩,
    ⟨"e3", [], 30, true, false⟩, ⟨"e4", [], 20, true, false⟩, ⟨"e5", [], 10, true, false⟩],
   0, [], some 6, [⟨"m0", "inbox"⟩], "m0", none, []⟩

/-- Reachable state for the bounds counterexample: archive the email at
index 5, then a list reload leaves a single email while the undo entry with
`insertIndex = 5` is still on the stack. -/
def staleUndoState : AppState :=
  loadEmailsOk (emailActionApply sixEmailState "archived" "e5" 0) [exEmailA]

/-! # Theorems -/

/-! ## C4 — pagination refill never duplicates an id -/

theorem refill_aux_nodup (emails fresh : List Email)
    (h1 : (emails.map (·.id)).Nodup) (h2 : (fresh.map (·.id)).Nodup) :
    ((refillApply emails fresh).map (·.id)).Nodup := by
  simp only [refillApply, List.map_append]
  rw [List.nodup_append]
  refine ⟨h1, ?_, ?_⟩
  · exact ((List.filter_sublist fresh).map (·.id)).nodup h2
  · intro x hx hx'
    simp only [List.mem_map] at hx'
    obtain ⟨e, he, rfl⟩ := hx'
    rw [List.mem_filter] at he
    have h2 := he.2
    rw [Bool.not_eq_true'] at h2
    simp at h2
    obtain ⟨w, hw, hweq⟩ := List.mem_map.1 hx
    exact h2 w hw hweq

/-- C4: for every cache and every page returned by a refill, the refill
appends only the emails whose ids are not already present, so an id-unique
cache stays id-unique; the spec's example scenario (cache `[a,b]`, page
`[a,b,c]`) appends exactly `[c]`. -/
theorem refill_no_duplicate_ids :
    (∀ emails fresh : List Email, (emails.map (·.id)).Nodup → (fresh.map (·.id)).Nodup →
      ((refillApply emails fresh).map (·.id)).Nodup) ∧
    refillApply [exEmailA, exEmailB] [exEmailA, exEmailB, exEmailC] =
      [exEmailA, exEmailB] ++ [exEmailC] :=
  ⟨refill_aux_nodup, by decide⟩

/-- Witness for C4 at the example scenario. -/
theorem refill_no_duplicate_ids_witness :
    ((refillApply [exEmailA, exEmailB] [exEmailA, exEmailB, exEmailC]).map (·.id)).Nodup :=
  refill_no_duplicate_ids.1 [exEmailA, exEmailB] [exEmailA, exEmailB, exEmailC]
    (by decide) (by decide)

/-! ## C5 — detail fetch staleness guard -/

theorem find?_key_map_replace (l : List (String × Email)) (k : String) (v : Email)
    (h : l.any (fun q => q.1 == k) = true) :
    List.find? (fun p => p.1 == k) (l.map fun q => if q.1 == k then (k, v) else q) =
      some (k, v) := by
  induction l with
  | nil => simp at h
  | cons q rest ih =>
    by_cases hq : q.1 = k
    · have hq' : (q.1 == k) = true := by simp [hq]
      rw [List.map_cons, if_pos hq']
      exact List.find?_cons_of_pos _ (by simp)
    · have hq' : (q.1 == k) = false := by simp [hq]
      have h' : rest.any (fun q => q.1 == k) = true := by
        simpa [List.any_cons, hq'] using h
      rw [List.map_cons, if_neg (by simp [hq'])]
      rw [List.find?_cons_of_neg _ (by simp [hq'])]
      exact ih h'

theorem find?_key_append_new (l : List (String × Email)) (k : String) (v : Email)
    (h : l.any (fun q => q.1 == k) = false) :
    List.find? (fun p => p.1 == k) (l ++ [(k, v)]) = some (k, v) := by
  induction l with
  | nil => simp [List.find?]
  | cons q rest ih =>
    rw [List.any_cons, Bool.or_eq_false_iff] at h
    rw [List.cons_append, List.find?_cons_of_neg _ (by simp [h.1])]
    exact ih h.2

theorem cacheLookup_cacheInsert (cache : List (String × Email)) (k : String) (v : Email) :
    cacheLookup (cacheInsert cache k v) k = some v := by
  cases h : cache.any (fun q => q.1 == k) with
  | true =>
    rw [cacheLookup, show cacheInsert cache k v =
        cache.map fun q => if q.1 == k then (k, v) else q from by
      unfold cacheInsert; rw [h]; simp]
    rw [find?_key_map_replace cache k v h]
    rfl
  | false =>
    rw [cacheLookup, show cacheInsert cache k v = cache ++ [(k, v)] from by
      unfold cacheInsert; rw [h]; simp]
    rw [find?_key_append_new cache k v h]
    rfl

/-- C5: when the fetch for message `emailId` completes, the result is always
stored in the detail cache; if the view no longer shows `emailId`, the shown
message (`currentEmail`) is untouched and no render happens; a render
happens only if the view still shows `emailId`. -/
theorem detail_fetch_staleness_guard (st : AppState) (emailId : String) (email : Email) :
    cacheLookup (onDetailFetched st emailId email).1.emailCache emailId = some email ∧
    (st.currentEmail.map (·.id) ≠ some emailId →
      (onDetailFetched st emailId email).1.currentEmail = st.currentEmail ∧
      (onDetailFetched st emailId email).2 = false) ∧
    ((onDetailFetched st emailId email).2 = true → st.currentEmail.map (·.id) = some emailId) := by
  refine ⟨?_, ?_, ?_⟩
  · by_cases h : st.currentEmail.map (·.id) = some emailId <;>
      simp [onDetailFetched, h, cacheLookup_cacheInsert]
  · intro h
    simp [onDetailFetched, h]
  · intro h
    by_cases hc : st.currentEmail.map (·.id) = some emailId
    · exact hc
    · simp [onDetailFetched, hc] at h

/-- Witness for C5: a stale completion (view shows `b`, fetch was for `a`)
caches the result without touching the shown message. -/
theorem detail_fetch_staleness_guard_witness :
    cacheLookup (onDetailFetched
        ⟨[], 0, [], none, [], "m", some exEmailB, []⟩ "a" exEmailA).1.emailCache "a" =
      some exEmailA ∧
    (onDetailFetched ⟨[], 0, [], none, [], "m", some exEmailB, []⟩ "a" exEmailA).1.currentEmail =
      some exEmailB := by
  have h := detail_fetch_staleness_guard ⟨[], 0, [], none, [], "m", some exEmailB, []⟩ "a" exEmailA
  exact ⟨h.1, (h.2.1 (by decide)).1⟩

/-! ## C8 — session discovery error mapping -/

/-- C8 counterexample: a 200 response whose body fails to parse is mapped to
`JmapNetworkError` — the same error class as a transport failure, not a
distinct protocol-error class (jmap.js only defines `JmapAuthError` and
`JmapNetworkError`). -/
theorem connect_malformed_not_distinct_class :
    connect "user" "tok" (.response 200 none) =
      .error (.networkError "Invalid JSON in session response") ∧
    connect "user" "tok" (.transportFailure "down") =
      .error (.networkError "Network error: down") ∧
    JmapError.name (.networkError "Invalid JSON in session response") =
      JmapError.name (.networkError "Network error: down") := by
  refine ⟨rfl, rfl, rfl⟩

/-- C8 amended: `connect` maps 401/403 to `JmapAuthError`, transport
failures and every other non-2xx status to `JmapNetworkError`, and a 2xx
response with a malformed body also to `JmapNetworkError` (distinguished
only by its message, not by a separate class); a parsed 2xx body yields the
session. -/
theorem connect_error_taxonomy (u t : String) :
    (∀ msg, connect u t (.transportFailure msg) =
      .error (.networkError ("Network error: " ++ msg))) ∧
    (∀ status body, status = 401 ∨ status = 403 →
      connect u t (.response status body) = .error (.authError "Invalid token")) ∧
    (∀ status body, ¬(status = 401 ∨ status = 403) → ¬(200 ≤ status ∧ status ≤ 299) →
      connect u t (.response status body) =
        .error (.networkError ("Connection failed (" ++ toString status ++ ")"))) ∧
    (∀ status, 200 ≤ status → status ≤ 299 →
      connect u t (.response status none) =
        .error (.networkError "Invalid JSON in session response")) ∧
    (∀ status body, 200 ≤ status → status ≤ 299 →
      connect u t (.response status (some body)) =
        .ok ⟨u, t, body.apiUrl, body.primaryMailAccount, body.uploadUrl, body.downloadUrl⟩) := by
  refine ⟨fun msg => rfl, ?_, ?_, ?_, ?_⟩
  · rintro status body (rfl | rfl) <;> rfl
  · intro status body h1 h2
    have e1 : (status == 401 || status == 403) = false := by
      simp only [Bool.or_eq_false_iff, beq_eq_false_iff_ne, ne_eq]
      omega
    have e2 : (!(decide (200 ≤ status) && decide (status ≤ 299))) = true := by
      simp only [Bool.not_eq_true', Bool.and_eq_false_iff, decide_eq_false_iff_not]
      omega
    simp [connect, e1, e2]
  · intro status h1 h2
    have e1 : (status == 401 || status == 403) = false := by
      simp only [Bool.or_eq_false_iff, beq_eq_false_iff_ne, ne_eq]
      omega
    have e2 : (!(decide (200 ≤ status) && decide (status ≤ 299))) = false := by
      simp [h1, h2]
    simp [connect, e1, e2]
  · intro status body h1 h2
    have e1 : (status == 401 || status == 403) = false := by
      simp only [Bool.or_eq_false_iff, beq_eq_false_iff_ne, ne_eq]
      omega
    have e2 : (!(decide (200 ≤ status) && decide (status ≤ 299))) = false := by
      simp [h1, h2]
    simp [connect, e1, e2]

/-- Witness for C8 amended, at a 403 response. -/
theorem connect_error_taxonomy_witness :
    connect "u" "t" (.response 403 none) = .error (.authError "Invalid token") :=
  (connect_error_taxonomy "u" "t").2.1 403 none (Or.inr rfl)

/-! ## Shared list lemmas for the optimistic-action rollback proofs -/

theorem emailActionApply_emails (st : AppState) (label eid : String) (now : Nat) :
    (emailActionApply st label eid now).emails = st.emails.filter fun e => !(e.id == eid) := rfl

theorem emailActionApply_undoStack (st : AppState) (label eid : String) (now : Nat) :
    (emailActionApply st label eid now).undoStack = st.undoStack ++
      [⟨label, eid, st.emails.find? (fun e => e.id == eid), removedIndexOf st.emails eid, now⟩] :=
  rfl

theorem filter_keep_of_find?_none (l : List Email) (eid : String)
    (h : l.find? (fun e => e.id == eid) = none) :
    l.filter (fun e => !(e.id == eid)) = l := by
  rw [List.filter_eq_self]
  intro a ha
  rw [List.find?_eq_none] at h
  simpa using h a ha

theorem jsSpliceInsert_natCast (l : List Email) (x : Email) (n : Nat) :
    jsSpliceInsert l (n : Int) x =
      l.take (min n l.length) ++ x :: l.drop (min n l.length) := by
  unfold jsSpliceInsert
  rw [if_neg (by omega)]
  norm_num

theorem splice_filter_restore (l : List Email) (eid : String) (e : Email)
    (h1 : l.find? (fun x => x.id == eid) = some e)
    (h2 : (l.filter fun x => x.id == eid).length ≤ 1) :
    jsSpliceInsert (l.filter fun x => !(x.id == eid)) (removedIndexOf l eid) e = l := by
  induction l with
  | nil => simp at h1
  | cons a t ih =>
    cases ha : a.id == eid with
    | true =>
      have he : e = a := by
        rw [List.find?_cons_of_pos (p := fun (x : Email) => x.id == eid) _ ha] at h1
        exact (Option.some_inj.mp h1).symm
      have hpos : (t.filter fun x => x.id == eid) = [] := by
        rw [List.filter_cons_of_pos (p := fun (x : Email) => x.id == eid) ha] at h2
        rw [List.length_cons] at h2
        exact List.eq_nil_of_length_eq_zero (by omega)
      have ht : (t.filter fun x => !(x.id == eid)) = t := by
        rw [List.filter_eq_self]
        intro x hx
        have := List.filter_eq_nil_iff.mp hpos x hx
        simpa using this
      have hidx : removedIndexOf (a :: t) eid = ((0 : Nat) : Int) := by
        unfold removedIndexOf
        rw [List.find?_cons_of_pos (p := fun (e : Email) => e.id == eid) _ ha, List.findIdx_cons, ha]
        rfl
      rw [List.filter_cons_of_neg (p := fun (x : Email) => !(x.id == eid)) (by simp [ha]), ht, hidx,
        jsSpliceInsert_natCast, he]
      simp
    | false =>
      have h1' : t.find? (fun x => x.id == eid) = some e := by
        rwa [List.find?_cons_of_neg (p := fun (x : Email) => x.id == eid) _ (by simp [ha])] at h1
      have h2' : (t.filter fun x => x.id == eid).length ≤ 1 := by
        rwa [List.filter_cons_of_neg (p := fun (x : Email) => x.id == eid) (by simp [ha])] at h2
      have hidx : removedIndexOf (a :: t) eid =
          (((t.findIdx fun x => x.id == eid) + 1 : Nat) : Int) := by
        unfold removedIndexOf
        rw [List.find?_cons_of_neg (p := fun (e : Email) => e.id == eid) _ (by simp [ha]), h1',
          List.findIdx_cons, ha]
        rfl
      have hidx' : removedIndexOf t eid = ((t.findIdx fun x => x.id == eid : Nat) : Int) := by
        unfold removedIndexOf
        rw [h1']
      have ihh := ih h1' h2'
      rw [hidx', jsSpliceInsert_natCast] at ihh
      rw [List.filter_cons_of_pos (p := fun (x : Email) => !(x.id == eid)) (by simp [ha]), hidx,
        jsSpliceInsert_natCast]
      rw [List.length_cons, Nat.succ_min_succ, List.take_succ_cons, List.drop_succ_cons]
      rw [List.cons_append]
      rw [ihh]

theorem removedIndexOf_le_filter (l : List Email) (eid : String) (e : Email)
    (h1 : l.find? (fun x => x.id == eid) = some e) :
    removedIndexOf l eid ≤ (((l.filter fun x => !(x.id == eid)).length : Nat) : Int) := by
  induction l with
  | nil => simp at h1
  | cons a t ih =>
    cases ha : a.id == eid with
    | true =>
      have hidx : removedIndexOf (a :: t) eid = ((0 : Nat) : Int) := by
        unfold removedIndexOf
        rw [List.find?_cons_of_pos (p := fun (e : Email) => e.id == eid) _ ha, List.findIdx_cons, ha]
        rfl
      rw [hidx]
      positivity
    | false =>
      have h1' : t.find? (fun x => x.id == eid) = some e := by
        rwa [List.find?_cons_of_neg (p := fun (x : Email) => x.id == eid) _ (by simp [ha])] at h1
      have hidx : removedIndexOf (a :: t) eid =
          (((t.findIdx fun x => x.id == eid) + 1 : Nat) : Int) := by
        unfold removedIndexOf
        rw [List.find?_cons_of_neg (p := fun (e : Email) => e.id == eid) _ (by simp [ha]), h1',
          List.findIdx_cons, ha]
        rfl
      have hidx' : removedIndexOf t eid = ((t.findIdx fun x => x.id == eid : Nat) : Int) := by
        unfold removedIndexOf
        rw [h1']
      have ihh := ih h1'
      rw [hidx'] at ihh
      rw [hidx, List.filter_cons_of_pos (p := fun (x : Email) => !(x.id == eid)) (by simp [ha]),
        List.length_cons]
      push_cast at ihh ⊢
      omega

theorem filter_id_length_le_one (l : List Email) (eid : String)
    (h : (l.map (·.id)).Nodup) : (l.filter fun x => x.id == eid).length ≤ 1 := by
  induction l with
  | nil => simp
  | cons a t ih =>
    rw [List.map_cons, List.nodup_cons] at h
    cases ha : a.id == eid with
    | false =>
      rw [List.filter_cons_of_neg (p := fun (x : Email) => x.id == eid) (by simp [ha])]
      exact ih h.2
    | true =>
      rw [List.filter_cons_of_pos (p := fun (x : Email) => x.id == eid) ha]
      have hnil : (t.filter fun x => x.id == eid) = [] := by
        rw [List.filter_eq_nil_iff]
        intro x hx hxx
        apply h.1
        rw [beq_iff_eq] at ha hxx
        exact List.mem_map.mpr ⟨x, hx, by rw [hxx, ha]⟩
      rw [hnil]
      simp

/-- `performUndoOk` on a state whose stack ends with `it`: the entry is
popped and, if it carries an email, the email is spliced back at
`min(insertIndex, length)`. -/
theorem performUndoOk_concat (st : AppState) (pre : List UndoEntry) (it : UndoEntry)
    (h : st.undoStack = pre ++ [it]) :
    (performUndoOk st).undoStack = pre ∧
    (performUndoOk st).emails = (match it.emailData with
      | some e => jsSpliceInsert st.emails (min it.insertIndex (st.emails.length : Int)) e
      | none => st.emails) := by
  rw [performUndoOk]
  unfold performUndoOptimistic
  rw [h, List.getLast?_concat]
  cases hd : it.emailData with
  | none => exact ⟨by simp [hd, adjustSplitCounts, h], by simp [hd, adjustSplitCounts]⟩
  | some e => exact ⟨by simp [hd, adjustSplitCounts, h], by simp [hd, adjustSplitCounts]⟩

/-- The emails/undo-stack output of `performUndoOk` depends only on the
emails and undo-stack input fields. -/
theorem performUndoOk_congr (s₁ s₂ : AppState) (he : s₁.emails = s₂.emails)
    (hs : s₁.undoStack = s₂.undoStack) :
    (performUndoOk s₁).emails = (performUndoOk s₂).emails ∧
    (performUndoOk s₁).undoStack = (performUndoOk s₂).undoStack := by
  rw [performUndoOk, performUndoOk]
  unfold performUndoOptimistic
  rw [he, hs]
  cases s₂.undoStack.getLast? with
  | none => exact ⟨he, hs⟩
  | some it =>
    cases hd : it.emailData with
    | none => exact ⟨by simp [hd, adjustSplitCounts, he], by simp [hd, adjustSplitCounts, hs]⟩
    | some e =>
      exact ⟨by simp [hd, adjustSplitCounts, he, hs], by simp [hd, adjustSplitCounts, hs]⟩

/-! ## C2 — failed archive/trash rolls back exactly -/

/-- C2: when the protocol call of an archive/trash action fails, the failure
handler restores the removed email at its original index — the email list is
exactly the pre-action list — and pops the undo entry the action pushed, so
the undo stack is also exactly the pre-action stack.  The hypothesis is the
cache invariant (no duplicate ids) that every reachable cache satisfies. -/
theorem emailAction_failure_rollback (st : AppState) (label eid : String) (now : Nat)
    (h : (st.emails.map (·.id)).Nodup) :
    (emailActionFail st label eid now).emails = st.emails ∧
    (emailActionFail st label eid now).undoStack = st.undoStack := by
  have h2 := filter_id_length_le_one st.emails eid h
  unfold emailActionFail
  cases hf : st.emails.find? (fun e => e.id == eid) with
  | none =>
    refine ⟨?_, ?_⟩
    · show (emailActionApply st label eid now).emails = st.emails
      rw [emailActionApply_emails]
      exact filter_keep_of_find?_none st.emails eid hf
    · show (emailActionApply st label eid now).undoStack.dropLast = st.undoStack
      rw [emailActionApply_undoStack, List.dropLast_concat]
  | some e =>
    refine ⟨?_, ?_⟩
    · show (adjustSplitCounts _ 1).emails = st.emails
      simp only [adjustSplitCounts]
      show jsSpliceInsert (emailActionApply st label eid now).emails
          (removedIndexOf st.emails eid) e = st.emails
      rw [emailActionApply_emails]
      exact splice_filter_restore st.emails eid e hf h2
    · show (adjustSplitCounts _ 1).undoStack = st.undoStack
      simp only [adjustSplitCounts]
      show (emailActionApply st label eid now).undoStack.dropLast = st.undoStack
      rw [emailActionApply_undoStack, List.dropLast_concat]

/-- Witness for C2: failing an archive of `b` in a three-email inbox leaves
list and undo stack unchanged. -/
theorem emailAction_failure_rollback_witness :
    (emailActionFail lifoDemo "archived" "b" 0).emails = lifoDemo.emails ∧
    (emailActionFail lifoDemo "archived" "b" 0).undoStack = lifoDemo.undoStack :=
  emailAction_failure_rollback lifoDemo "archived" "b" 0 (by decide)

/-! ## C3 — N archives then N undos restore the list exactly -/

/-- Undoing right after an archive restores the email list and the undo
stack exactly. -/
theorem undo_after_apply (st : AppState) (label eid : String) (now : Nat)
    (h2 : (st.emails.filter fun x => x.id == eid).length ≤ 1) :
    (performUndoOk (emailActionApply st label eid now)).emails = st.emails ∧
    (performUndoOk (emailActionApply st label eid now)).undoStack = st.undoStack := by
  have hc := performUndoOk_concat (emailActionApply st label eid now) st.undoStack
    ⟨label, eid, st.emails.find? (fun e => e.id == eid), removedIndexOf st.emails eid, now⟩
    (emailActionApply_undoStack st label eid now)
  refine ⟨?_, hc.1⟩
  rw [hc.2]
  cases hf : st.emails.find? (fun e => e.id == eid) with
  | none =>
    show (emailActionApply st label eid now).emails = st.emails
    rw [emailActionApply_emails]
    exact filter_keep_of_find?_none st.emails eid hf
  | some e =>
    show jsSpliceInsert (emailActionApply st label eid now).emails
        (min (removedIndexOf st.emails eid)
          ((emailActionApply st label eid now).emails.length : Int)) e = st.emails
    rw [emailActionApply_emails]
    rw [min_eq_left (removedIndexOf_le_filter st.emails eid e hf)]
    exact splice_filter_restore st.emails eid e hf h2

/-- C3: `N` successful archives followed by `N` successful undos (the undo
stack is consumed in strict LIFO order by `performUndo`) restore the email
list — content, order and flag state — and the undo stack exactly, for every
id-unique starting cache. -/
theorem archive_undo_lifo (st : AppState) (label : String) (ids : List String) (now : Nat)
    (h : (st.emails.map (·.id)).Nodup) :
    (undoSeq ids.length (archiveSeq st label ids now)).emails = st.emails ∧
    (undoSeq ids.length (archiveSeq st label ids now)).undoStack = st.undoStack := by
  induction ids generalizing st with
  | nil => exact ⟨rfl, rfl⟩
  | cons i ids ih =>
    have hnd : ((emailActionApply st label i now).emails.map (·.id)).Nodup := by
      rw [emailActionApply_emails]
      exact ((List.filter_sublist _).map _).nodup h
    have ihh := ih (emailActionApply st label i now) hnd
    have hcg := performUndoOk_congr
      (undoSeq ids.length (archiveSeq (emailActionApply st label i now) label ids now))
      (emailActionApply st label i now) ihh.1 ihh.2
    have hfin := undo_after_apply st label i now (filter_id_length_le_one st.emails i h)
    have hstep : undoSeq (i :: ids).length (archiveSeq st label (i :: ids) now) =
        performUndoOk
          (undoSeq ids.length (archiveSeq (emailActionApply st label i now) label ids now)) :=
      rfl
    rw [hstep]
    exact ⟨hcg.1.trans hfin.1, hcg.2.trans hfin.2⟩

/-- Witness for C3: archiving `a` then `b` and undoing twice restores the
three-email inbox. -/
theorem archive_undo_lifo_witness :
    (undoSeq 2 (archiveSeq lifoDemo "archived" ["a", "b"] 0)).emails = lifoDemo.emails ∧
    (undoSeq 2 (archiveSeq lifoDemo "archived" ["a", "b"] 0)).undoStack = lifoDemo.undoStack :=
  archive_undo_lifo lifoDemo "archived" ["a", "b"] 0 (by decide)

/-! ## C9 — undo is optimistic; its failure path reverses the reinsert -/

/-- `splice(k, 0, x)` in normalized form. -/
theorem jsSpliceInsert_eq (l : List Email) (s : Int) (x : Email) :
    ∃ k, jsSpliceInsert l s x = l.take k ++ x :: l.drop k :=
  ⟨_, rfl⟩

theorem mem_jsSpliceInsert (l : List Email) (s : Int) (x : Email) : x ∈ jsSpliceInsert l s x := by
  obtain ⟨k, hk⟩ := jsSpliceInsert_eq l s x
  rw [hk]
  exact List.mem_append.mpr (Or.inr (List.mem_cons_self x _))

theorem length_jsSpliceInsert (l : List Email) (s : Int) (x : Email) :
    (jsSpliceInsert l s x).length = l.length + 1 := by
  obtain ⟨k, hk⟩ := jsSpliceInsert_eq l s x
  rw [hk]
  simp only [List.length_append, List.length_cons, List.length_take, List.length_drop]
  omega

theorem filter_jsSpliceInsert (l : List Email) (s : Int) (x : Email) (eid : String)
    (hx : (x.id == eid) = true) (hl : ∀ y ∈ l, (y.id == eid) = false) :
    (jsSpliceInsert l s x).filter (fun e => !(e.id == eid)) = l := by
  obtain ⟨k, hk⟩ := jsSpliceInsert_eq l s x
  rw [hk, List.filter_append]
  have h1 : (l.take k).filter (fun e => !(e.id == eid)) = l.take k := by
    rw [List.filter_eq_self]
    intro y hy
    simp [hl y (List.take_subset _ _ hy)]
  have h2 : (x :: l.drop k).filter (fun e => !(e.id == eid)) = l.drop k := by
    rw [List.filter_cons_of_neg (p := fun (e : Email) => !(e.id == eid)) (by simp [hx])]
    rw [List.filter_eq_self]
    intro y hy
    simp [hl y (List.drop_subset _ _ hy)]
  rw [h1, h2, List.take_append_drop]

/-- `performUndo`'s failure continuation, on a state whose stack ends with
`it`: the entry stays popped and the spliced-in email is filtered back out. -/
theorem performUndoFail_concat (st : AppState) (pre : List UndoEntry) (it : UndoEntry)
    (h : st.undoStack = pre ++ [it]) :
    (performUndoFail st).undoStack = pre ∧
    (performUndoFail st).emails = (match it.emailData with
      | some _ =>
        (jsSpliceInsert st.emails (min it.insertIndex (st.emails.length : Int))
            (it.emailData.getD exEmailA)).filter (fun e => !(e.id == it.emailId))
      | none => st.emails) := by
  have hrfl : performUndoOptimistic st = performUndoOk st := rfl
  have hopt := performUndoOk_concat st pre it h
  refine ⟨?_, ?_⟩
  · unfold performUndoFail
    rw [h, List.getLast?_concat]
    cases hd : it.emailData with
    | none =>
      simp only [hd, adjustSplitCounts]
      rw [hrfl]
      exact hopt.1
    | some e =>
      simp only [hd, adjustSplitCounts]
      rw [hrfl]
      exact hopt.1
  · unfold performUndoFail
    rw [h, List.getLast?_concat]
    cases hd : it.emailData with
    | none =>
      simp only [hd, adjustSplitCounts]
      rw [hrfl, hopt.2, hd]
    | some e =>
      simp only [hd, adjustSplitCounts, Option.getD_some]
      rw [hrfl, hopt.2, hd]

/-- C9 amended: performing undo first reinserts the removed email into the
local list (the optimistic state in which the server move — directed at the
inbox-role mailbox — is issued contains it), and if the server call fails
the reinserted email is removed again, leaving the email list exactly as it
was before the undo; the popped entry stays popped.  Hypotheses: the undone
entry carries the removed email (as `pushUndo` recorded it) and the email is
no longer in the list (it was removed by the undone action). -/
theorem undo_optimistic_reinsert_and_rollback (st : AppState) (it : UndoEntry) (e : Email)
    (hlast : st.undoStack.getLast? = some it)
    (hdata : it.emailData = some e)
    (hid : (e.id == it.emailId) = true)
    (habs : ∀ y ∈ st.emails, (y.id == it.emailId) = false) :
    e ∈ (performUndoOptimistic st).emails ∧
    (performUndoFail st).emails = st.emails ∧
    (performUndoFail st).undoStack = st.undoStack.dropLast := by
  obtain ⟨pre, hpre⟩ := List.getLast?_eq_some_iff.mp hlast
  have hopt := performUndoOk_concat st pre it hpre
  have hfail := performUndoFail_concat st pre it hpre
  refine ⟨?_, ?_, ?_⟩
  · show e ∈ (performUndoOk st).emails
    rw [hopt.2, hdata]
    exact mem_jsSpliceInsert _ _ _
  · rw [hfail.2, hdata]
    show (jsSpliceInsert st.emails _ ((some e).getD exEmailA)).filter _ = st.emails
    exact filter_jsSpliceInsert st.emails _ e it.emailId hid habs
  · rw [hfail.1, hpre, List.dropLast_concat]

/-- Witness for C9 amended: undoing an archived email `b` with the server
move failing leaves the one-email list unchanged. -/
theorem undo_optimistic_reinsert_and_rollback_witness :
    exEmailB ∈ (performUndoOptimistic
      ⟨[exEmailA], 0, [⟨"archived", "b", some exEmailB, 1, 0⟩], some 1,
        [⟨"m0", "inbox"⟩], "m0", none, []⟩).emails ∧
    (performUndoFail
      ⟨[exEmailA], 0, [⟨"archived", "b", some exEmailB, 1, 0⟩], some 1,
        [⟨"m0", "inbox"⟩], "m0", none, []⟩).emails = [exEmailA] ∧
    (performUndoFail
      ⟨[exEmailA], 0, [⟨"archived", "b", some exEmailB, 1, 0⟩], some 1,
        [⟨"m0", "inbox"⟩], "m0", none, []⟩).undoStack = [] :=
  undo_optimistic_reinsert_and_rollback
    ⟨[exEmailA], 0, [⟨"archived", "b", some exEmailB, 1, 0⟩], some 1,
      [⟨"m0", "inbox"⟩], "m0", none, []⟩
    ⟨"archived", "b", some exEmailB, 1, 0⟩ exEmailB (by decide) (by decide) (by decide)
    (by decide)

/-- C9 counterexample to "move back to the origin mailbox": the archive
action is taken while the archive mailbox (`mb-archive`) is the current
view — the origin the removed email would have to return to — yet the move
`performUndo` issues targets the inbox-role mailbox `mb-inbox`. -/
theorem undo_moves_to_inbox_not_origin :
    undoMoveTarget (emailActionApply originScenario "archived" "e1" 0) = some "mb-inbox" ∧
    (emailActionApply originScenario "archived" "e1" 0).currentMailboxId = "mb-archive" ∧
    undoMoveTarget (emailActionApply originScenario "archived" "e1" 0) ≠
      some (emailActionApply originScenario "archived" "e1" 0).currentMailboxId := by
  refine ⟨by decide, by decide, by decide⟩

/-! ## C10 — the selection index stays in bounds -/

theorem selBounds_iff (st : AppState) : selBounds st = true ↔
    (st.emails.length = 0 → st.selectedIndex = 0) ∧
    (0 < st.emails.length →
      0 ≤ st.selectedIndex ∧ st.selectedIndex ≤ (st.emails.length : Int) - 1) := by
  unfold selBounds
  cases hemp : st.emails with
  | nil => simp
  | cons a t =>
    simp only [List.isEmpty_cons, Bool.false_eq_true, if_false, Bool.and_eq_true,
      decide_eq_true_eq, List.length_cons]
    constructor
    · intro hx
      exact ⟨fun h0 => by omega, fun _ => hx⟩
    · intro hx
      exact hx.2 (by omega)

theorem selBounds_nonneg (st : AppState) (h : selBounds st = true) : 0 ≤ st.selectedIndex := by
  rw [selBounds_iff] at h
  rcases Nat.eq_zero_or_pos st.emails.length with h0 | h0
  · rw [h.1 h0]
  · exact (h.2 h0).1

theorem selBounds_congr (s₁ s₂ : AppState) (he : s₁.emails = s₂.emails)
    (hs : s₁.selectedIndex = s₂.selectedIndex) : selBounds s₁ = selBounds s₂ := by
  unfold selBounds
  rw [he, hs]

/-- The clamp `if (selectedIndex >= emails.length) selectedIndex =
max(0, length - 1)` restores the bounds for any new list. -/
theorem selBounds_clamp (st : AppState) (E : List Email) (hnn : 0 ≤ st.selectedIndex) :
    selBounds { st with
        emails := E
        selectedIndex :=
          if st.selectedIndex ≥ (E.length : Int) then max 0 ((E.length : Int) - 1)
          else st.selectedIndex } = true := by
  rw [selBounds_iff]
  dsimp only
  constructor
  · intro h0
    split <;> omega
  · intro h0
    split <;> constructor <;> omega

theorem selBounds_removeEmailFromList (st : AppState) (eid : String)
    (h : selBounds st = true) : selBounds (removeEmailFromList st eid) = true := by
  unfold removeEmailFromList
  exact selBounds_clamp st _ (selBounds_nonneg st h)

theorem selBounds_emailActionApply (st : AppState) (label eid : String) (now : Nat)
    (h : selBounds st = true) : selBounds (emailActionApply st label eid now) = true := by
  have hp : selBounds (pushUndo st label eid (st.emails.find? (fun e => e.id == eid))
      (removedIndexOf st.emails eid) now) = selBounds st :=
    selBounds_congr (pushUndo st label eid (st.emails.find? (fun e => e.id == eid))
      (removedIndexOf st.emails eid) now) st rfl rfl
  have h1 : selBounds (pushUndo st label eid (st.emails.find? (fun e => e.id == eid))
      (removedIndexOf st.emails eid) now) = true := hp.trans h
  have h2 := selBounds_removeEmailFromList _ eid h1
  have ha : selBounds (emailActionApply st label eid now) =
      selBounds (removeEmailFromList (pushUndo st label eid
        (st.emails.find? (fun e => e.id == eid)) (removedIndexOf st.emails eid) now) eid) :=
    selBounds_congr (emailActionApply st label eid now)
      (removeEmailFromList (pushUndo st label eid
        (st.emails.find? (fun e => e.id == eid)) (removedIndexOf st.emails eid) now) eid) rfl rfl
  exact ha.trans h2

theorem emailActionFail_selectedIndex (st : AppState) (label eid : String) (now : Nat) :
    (emailActionFail st label eid now).selectedIndex =
      (emailActionApply st label eid now).selectedIndex := by
  unfold emailActionFail
  cases hf : st.emails.find? (fun e => e.id == eid) with
  | none => simp only [hf, adjustSplitCounts]
  | some e => simp only [hf, adjustSplitCounts]

theorem emailActionFail_emails (st : AppState) (label eid : String) (now : Nat) :
    (emailActionFail st label eid now).emails = (match st.emails.find? (fun e => e.id == eid) with
      | some e => jsSpliceInsert (emailActionApply st label eid now).emails
          (removedIndexOf st.emails eid) e
      | none => (emailActionApply st label eid now).emails) := by
  unfold emailActionFail
  cases hf : st.emails.find? (fun e => e.id == eid) with
  | none => simp only [hf, adjustSplitCounts]
  | some e => simp only [hf, adjustSplitCounts]

theorem selBounds_emailActionFail (st : AppState) (label eid : String) (now : Nat)
    (h : selBounds st = true) : selBounds (emailActionFail st label eid now) = true := by
  have happly := selBounds_emailActionApply st label eid now h
  rw [selBounds_iff] at happly ⊢
  rw [emailActionFail_selectedIndex, emailActionFail_emails]
  cases hf : st.emails.find? (fun e => e.id == eid) with
  | none => exact happly
  | some e =>
    simp only
    rw [length_jsSpliceInsert]
    rcases Nat.eq_zero_or_pos (emailActionApply st label eid now).emails.length with h0 | h0
    · have := happly.1 h0
      constructor <;> intro <;> [omega; constructor <;> omega]
    · have := happly.2 h0
      constructor <;> intro <;> [omega; constructor <;> omega]

theorem moveSelection_eq (st : AppState) (delta : Int) :
    moveSelection st delta = if st.selectedIndex + delta < 0 ∨
        st.selectedIndex + delta ≥ (st.emails.length : Int) then st
      else { st with selectedIndex := st.selectedIndex + delta } := rfl

theorem selBounds_moveSelection (st : AppState) (delta : Int)
    (h : selBounds st = true) : selBounds (moveSelection st delta) = true := by
  rw [moveSelection_eq]
  split
  · exact h
  · next hcond =>
    push_neg at hcond
    rw [selBounds_iff]
    dsimp only
    constructor <;> intro <;> omega

theorem unsubscribeApply_eq (st : AppState) (eid : String) :
    unsubscribeApply st eid =
      (match (match st.emails.find? (fun (e : Email) => e.id == eid) with
        | some e => some e
        | none => st.currentEmail).bind senderKey with
      | none => (st, [])
      | some s =>
        ({ st with
            emails := st.emails.filter (fun e => !(senderKey e == some s))
            selectedIndex :=
              if st.selectedIndex ≥
                  ((st.emails.filter (fun e => !(senderKey e == some s))).length : Int) then
                max 0 (((st.emails.filter (fun e => !(senderKey e == some s))).length : Int) - 1)
              else st.selectedIndex },
          st.emails.filter (fun e => senderKey e == some s))) := rfl

theorem selBounds_unsubscribeApply (st : AppState) (eid : String)
    (h : selBounds st = true) : selBounds (unsubscribeApply st eid).1 = true := by
  have hnn := selBounds_nonneg st h
  rw [unsubscribeApply_eq]
  cases hsk : (match st.emails.find? (fun (e : Email) => e.id == eid) with
      | some e => some e
      | none => st.currentEmail).bind senderKey with
  | none => exact h
  | some s => exact selBounds_clamp st _ hnn

theorem length_sortByReceivedDesc (l : List Email) : (sortByReceivedDesc l).length = l.length :=
  List.length_mergeSort l

theorem selBounds_unsubscribeFail (st : AppState) (removed : List Email)
    (h : selBounds st = true) : selBounds (unsubscribeFail st removed) = true := by
  unfold unsubscribeFail
  split
  · exact h
  · rw [selBounds_iff] at h ⊢
    dsimp only
    rw [length_sortByReceivedDesc, List.length_append]
    next hne =>
    have hrpos : 0 < removed.length := by
      cases removed with
      | nil => simp at hne
      | cons a t => simp
    rcases Nat.eq_zero_or_pos st.emails.length with h0 | h0
    · have := h.1 h0
      constructor <;> intro <;> [omega; constructor <;> omega]
    · have := h.2 h0
      constructor <;> intro <;> [omega; constructor <;> omega]

theorem performUndoOk_nil (st : AppState) (h : st.undoStack.getLast? = none) :
    performUndoOk st = st := by
  rw [performUndoOk]
  unfold performUndoOptimistic
  rw [h]

theorem performUndoOk_selectedIndex_concat (st : AppState) (pre : List UndoEntry)
    (it : UndoEntry) (h : st.undoStack = pre ++ [it]) :
    (performUndoOk st).selectedIndex = (match it.emailData with
      | some _ => min it.insertIndex (st.emails.length : Int)
      | none => st.selectedIndex) := by
  rw [performUndoOk]
  unfold performUndoOptimistic
  rw [h, List.getLast?_concat]
  cases hd : it.emailData with
  | none => simp only [hd, adjustSplitCounts]
  | some e => simp only [hd, adjustSplitCounts]

theorem selBounds_performUndoOk (st : AppState) (hb : selBounds st = true)
    (hwf : wfUndoStack st = true) : selBounds (performUndoOk st) = true := by
  cases hl : st.undoStack.getLast? with
  | none => rw [performUndoOk_nil st hl]; exact hb
  | some it =>
    obtain ⟨pre, hpre⟩ := List.getLast?_eq_some_iff.mp hl
    have hc := performUndoOk_concat st pre it hpre
    have hs := performUndoOk_selectedIndex_concat st pre it hpre
    cases hd : it.emailData with
    | none =>
      rw [selBounds_iff] at hb ⊢
      rw [hs, hc.2, hd]
      exact hb
    | some e =>
      have hmem : it ∈ st.undoStack := by
        rw [hpre]
        exact List.mem_append.mpr (Or.inr (List.mem_cons_self it []))
      have hwf' := List.all_eq_true.mp hwf it hmem
      rw [hd] at hwf'
      simp only [Option.isNone_some, Bool.false_or, decide_eq_true_eq] at hwf'
      rw [selBounds_iff] at hb ⊢
      rw [hs, hc.2, hd]
      simp only
      rw [length_jsSpliceInsert]
      constructor <;> intro <;> [omega; constructor <;> omega]

theorem selBounds_loadEmailsOk (st : AppState) (fetched : List Email) :
    selBounds (loadEmailsOk st fetched) = true := by
  rw [selBounds_iff]
  dsimp only [loadEmailsOk]
  constructor <;> intro <;> omega

theorem wf_emailActionApply (st : AppState) (label eid : String) (now : Nat)
    (h : wfUndoStack st = true) : wfUndoStack (emailActionApply st label eid now) = true := by
  unfold wfUndoStack at h ⊢
  rw [emailActionApply_undoStack, List.all_append]
  rw [h]
  simp only [Bool.true_and, List.all_cons, List.all_nil, Bool.and_true]
  cases hf : st.emails.find? (fun e => e.id == eid) with
  | none => rfl
  | some e =>
    simp only [Option.isNone_some, Bool.false_or]
    unfold removedIndexOf
    rw [hf]
    simp

/-- C10 amended: after list removal, optimistic archive/trash and its
rollback, navigation, bulk sender removal and its rollback, successful undo
(with the entry shape `pushUndo` creates), and a list reload, the selection
index stays in bounds — 0 on an empty list, a valid index otherwise.  The
undo *failure* rollback is the exception (see the counterexample). -/
theorem selection_bounds_preserved_ops (st : AppState) (h : selBounds st = true) :
    (∀ eid, selBounds (removeEmailFromList st eid) = true) ∧
    (∀ label eid now, selBounds (emailActionApply st label eid now) = true) ∧
    (∀ label eid now, selBounds (emailActionFail st label eid now) = true) ∧
    (∀ delta, selBounds (moveSelection st delta) = true) ∧
    (∀ eid, selBounds (unsubscribeApply st eid).1 = true) ∧
    (∀ removed, selBounds (unsubscribeFail st removed) = true) ∧
    (wfUndoStack st = true → selBounds (performUndoOk st) = true) ∧
    (∀ fetched, selBounds (loadEmailsOk st fetched) = true) ∧
    (∀ label eid now, wfUndoStack st = true →
      wfUndoStack (emailActionApply st label eid now) = true) :=
  ⟨fun eid => selBounds_removeEmailFromList st eid h,
   fun label eid now => selBounds_emailActionApply st label eid now h,
   fun label eid now => selBounds_emailActionFail st label eid now h,
   fun delta => selBounds_moveSelection st delta h,
   fun eid => selBounds_unsubscribeApply st eid h,
   fun removed => selBounds_unsubscribeFail st removed h,
   fun hwf => selBounds_performUndoOk st h hwf,
   fun fetched => selBounds_loadEmailsOk st fetched,
   fun label eid now hwf => wf_emailActionApply st label eid now hwf⟩

/-- Witness for C10 amended: removing `b` from the three-email inbox keeps
the selection in bounds. -/
theorem selection_bounds_preserved_ops_witness :
    selBounds (removeEmailFromList lifoDemo "b") = true :=
  (selection_bounds_preserved_ops lifoDemo (by decide)).1 "b"

/-- C10 counterexample: from the reachable state `staleUndoState` (archive
the email at index 5, reload the list down to one email), the failure
rollback of `performUndo` leaves `selectedIndex = 1` on a one-element list —
out of bounds — because the failure path removes the reinserted email
without re-clamping the selection index set by the optimistic part. -/
theorem selection_index_escapes_bounds_on_undo_rollback :
    selBounds staleUndoState = true ∧
    wfUndoStack staleUndoState = true ∧
    selBounds (performUndoFail staleUndoState) = false ∧
    (performUndoFail staleUndoState).selectedIndex = 1 ∧
    (performUndoFail staleUndoState).emails.length = 1 := by
  refine ⟨by decide, by decide, by decide, by decide, by decide⟩

/-! ## String lemmas for the sanitizer proofs -/

theorem dropWhile_dropWhile (p : Char → Bool) (l : List Char) :
    List.dropWhile p (List.dropWhile p l) = List.dropWhile p l := by
  induction l with
  | nil => rfl
  | cons a t ih =>
    by_cases h : p a
    · simp [List.dropWhile_cons, h, ih]
    · simp [List.dropWhile_cons, h]

theorem jsTrimLeft_idem (l : List Char) : jsTrimLeft (jsTrimLeft l) = jsTrimLeft l :=
  dropWhile_dropWhile _ l

theorem jsTrimRight_pre (l : List Char) : jsTrimRight l <+: l := by
  have h := (List.dropWhile_suffix (l := l.reverse) Char.isWhitespace).reverse
  rwa [List.reverse_reverse] at h

theorem jsTrimRight_idem (l : List Char) : jsTrimRight (jsTrimRight l) = jsTrimRight l := by
  unfold jsTrimRight
  rw [List.reverse_reverse, dropWhile_dropWhile]

theorem jsTrimLeft_jsTrimRight (z : List Char) (h : jsTrimLeft z = z) :
    jsTrimLeft (jsTrimRight z) = jsTrimRight z := by
  cases hz : jsTrimRight z with
  | nil => rfl
  | cons b u =>
    have hpre : jsTrimRight z <+: z := jsTrimRight_pre z
    rw [hz] at hpre
    cases z with
    | nil => simp at hpre
    | cons a t =>
      have hb : b = a := (List.cons_prefix_cons.mp hpre).1
      unfold jsTrimLeft at h ⊢
      rw [List.dropWhile_cons] at h
      by_cases hw : Char.isWhitespace a
      · rw [if_pos hw] at h
        have hlen := congrArg List.length h
        have hle := ((List.dropWhile_suffix (l := t) Char.isWhitespace).sublist).length_le
        simp at hlen
        omega
      · rw [List.dropWhile_cons, hb, if_neg hw]

theorem jsTrim_idem (l : List Char) : jsTrim (jsTrim l) = jsTrim l := by
  unfold jsTrim
  rw [jsTrimLeft_jsTrimRight _ (jsTrimLeft_idem l), jsTrimRight_idem]

theorem jsTrim_inf (c : List Char) : jsTrim c <:+: c :=
  (jsTrimRight_pre (jsTrimLeft c)).isInfix.trans (List.dropWhile_suffix _).isInfix

theorem jsTrim_cons_space (d : List Char) : jsTrim (' ' :: d) = jsTrim d := by
  unfold jsTrim jsTrimLeft
  rw [List.dropWhile_cons, if_pos (by decide)]

theorem splitOnCharL_spec (sep : Char) (v : List Char) :
    ∃ d ds, splitOnCharL sep v = d :: ds ∧ d <+: v ∧ (∀ x ∈ ds, x <:+: v) ∧
      (∀ x ∈ d :: ds, sep ∉ x) := by
  induction v with
  | nil => exact ⟨[], [], rfl, List.nil_prefix, by simp, by simp⟩
  | cons c rest ih =>
    obtain ⟨d, ds, hsplit, hpre, hinf, hnsep⟩ := ih
    by_cases hc : c = sep
    · refine ⟨[], d :: ds, by simp [splitOnCharL, hc, hsplit], List.nil_prefix, ?_, ?_⟩
      · intro x hx
        rcases List.mem_cons.mp hx with rfl | hx'
        · exact List.infix_cons hpre.isInfix
        · exact List.infix_cons (hinf x hx')
      · intro x hx
        rcases List.mem_cons.mp hx with rfl | hx'
        · simp
        · exact hnsep x hx'
    · refine ⟨c :: d, ds, by simp [splitOnCharL, hc, hsplit], ?_, ?_, ?_⟩
      · exact List.cons_prefix_cons.mpr ⟨rfl, hpre⟩
      · intro x hx
        exact List.infix_cons (hinf x hx)
      · intro x hx
        rcases List.mem_cons.mp hx with rfl | hx'
        · intro hmem
          rcases List.mem_cons.mp hmem with rfl | hmem'
          · exact hc rfl
          · exact hnsep d (List.mem_cons_self d ds) hmem'
        · exact hnsep x (List.mem_cons_of_mem d hx')

theorem splitOnCharL_mem_no_sep (sep : Char) (v : List Char) (c : List Char)
    (hc : c ∈ splitOnCharL sep v) : sep ∉ c := by
  obtain ⟨d, ds, hsplit, _, _, hnsep⟩ := splitOnCharL_spec sep v
  rw [hsplit] at hc
  exact hnsep c hc

theorem splitOnCharL_no_sep (sep : Char) (d : List Char) (h : sep ∉ d) :
    splitOnCharL sep d = [d] := by
  induction d with
  | nil => rfl
  | cons c rest ih =>
    have hc : ¬c = sep := fun e => h (e ▸ List.mem_cons_self c rest)
    have hrest : sep ∉ rest := fun hr => h (List.mem_cons_of_mem _ hr)
    simp [splitOnCharL, hc, ih hrest]

theorem splitOnCharL_append (sep : Char) (d tail : List Char) (h : sep ∉ d) :
    splitOnCharL sep (d ++ sep :: tail) = d :: splitOnCharL sep tail := by
  induction d with
  | nil => simp [splitOnCharL]
  | cons c d' ih =>
    have hc : ¬c = sep := fun e => h (e ▸ List.mem_cons_self c d')
    have hd' : sep ∉ d' := fun hr => h (List.mem_cons_of_mem _ hr)
    simp [splitOnCharL, hc, ih hd']

theorem intercalate_cons₂ (sep d e : List Char) (rest : List (List Char)) :
    List.intercalate sep (d :: e :: rest) = d ++ sep ++ List.intercalate sep (e :: rest) := by
  unfold List.intercalate
  rw [List.intersperse_cons₂, List.flatten_cons, List.flatten_cons, List.append_assoc]

theorem intercalate_single (sep d : List Char) : List.intercalate sep [d] = d := by
  unfold List.intercalate
  rw [List.intersperse_singleton, List.flatten_cons]
  simp

theorem splitOnCharL_intercalate (ds : List (List Char)) (d : List Char)
    (h : ∀ x ∈ d :: ds, (';' : Char) ∉ x) :
    splitOnCharL ';' (List.intercalate [';', ' '] (d :: ds)) =
      d :: ds.map (fun x => ' ' :: x) := by
  induction ds generalizing d with
  | nil =>
    rw [intercalate_single]
    exact splitOnCharL_no_sep ';' d (h d (List.mem_cons_self d []))
  | cons e rest ih =>
    rw [intercalate_cons₂]
    have hsh : d ++ [';', ' '] ++ List.intercalate [';', ' '] (e :: rest) =
        d ++ ';' :: ' ' :: List.intercalate [';', ' '] (e :: rest) := by
      simp
    rw [hsh, splitOnCharL_append ';' d _ (h d (List.mem_cons_self d _))]
    have ihh := ih e (fun x hx => h x (List.mem_cons_of_mem d hx))
    simp only [splitOnCharL, if_neg (by decide : ¬(' ' = ';')), ihh, List.map_cons]

/-- The central `stripColorStyles` round-trip fact: the trimmed
declarations of the output are the kept declarations of the input (with the
one empty declaration JS's `''.split(';')` produces when nothing is kept). -/
theorem stripColorStylesL_decls (v : List Char) :
    declsOf (stripColorStylesL v) =
      if ((declsOf v).filter keepDecl).isEmpty then [[]]
      else (declsOf v).filter keepDecl := by
  have hmem : ∀ x ∈ (declsOf v).filter keepDecl, (';' : Char) ∉ x ∧ jsTrim x = x := by
    intro x hx
    rw [List.mem_filter] at hx
    obtain ⟨hx1, _⟩ := hx
    rw [declsOf, List.mem_map] at hx1
    obtain ⟨c, hc, rfl⟩ := hx1
    refine ⟨?_, jsTrim_idem c⟩
    intro hsemi
    exact splitOnCharL_mem_no_sep ';' v c hc ((jsTrim_inf c).subset hsemi)
  have hstrip : stripColorStylesL v = List.intercalate [';', ' '] ((declsOf v).filter keepDecl) :=
    rfl
  cases hd : (declsOf v).filter keepDecl with
  | nil =>
    rw [hstrip, hd]
    simp [List.intercalate, declsOf, splitOnCharL, jsTrim, jsTrimLeft, jsTrimRight]
  | cons d rest =>
    rw [hstrip, hd]
    simp only [List.isEmpty_cons, Bool.false_eq_true, if_false]
    have hnosep : ∀ x ∈ d :: rest, (';' : Char) ∉ x := by
      intro x hx
      exact (hmem x (hd ▸ hx)).1
    rw [declsOf, splitOnCharL_intercalate rest d hnosep]
    rw [List.map_cons, (hmem d (hd ▸ List.mem_cons_self d rest)).2]
    congr 1
    rw [List.map_map]
    refine List.map_congr_left ?_ |>.trans (List.map_id rest)
    intro x hx
    have := (hmem x (hd ▸ List.mem_cons_of_mem d hx)).2
    simp only [Function.comp_apply, jsTrim_cons_space]
    exact this

/-- `stripColorStyles` is idempotent. -/
theorem stripColorStylesL_idem (v : List Char) :
    stripColorStylesL (stripColorStylesL v) = stripColorStylesL v := by
  have h1 : stripColorStylesL (stripColorStylesL v) =
      List.intercalate [';', ' '] ((declsOf (stripColorStylesL v)).filter keepDecl) := rfl
  have h2 : stripColorStylesL v = List.intercalate [';', ' '] ((declsOf v).filter keepDecl) := rfl
  rw [h1, stripColorStylesL_decls v]
  cases hd : (declsOf v).filter keepDecl with
  | nil => simp [hd, keepDecl, h2]
  | cons d rest =>
    simp only [hd, List.isEmpty_cons, Bool.false_eq_true, if_false]
    rw [List.filter_eq_self.mpr, h2, hd]
    intro a ha
    have : a ∈ (declsOf v).filter keepDecl := hd ▸ ha
    exact (List.mem_filter.mp this).2

/-! ## C7 — which style declarations are stripped -/

/-- C7 counterexample: `border-color` is not in the code's `colorProps` list
(and no entry of that list is a prefix of `border-color` followed by `-`),
so a border-color declaration survives `stripColorStyles`, while the claim
requires every border-color property to be stripped. -/
theorem stripColorStyles_keeps_border_color :
    stripColorStyles "border-color:red;margin:4px" = "border-color:red; margin:4px" ∧
    stripColorStyles "border-color:red;margin:4px" ≠ "margin:4px" := by
  refine ⟨by decide, by decide⟩

/-- C7 amended: `stripColorStyles` drops exactly the declarations whose
property name is `color`, `background(-*)`, `outline-color`,
`text-decoration-color`, `text-shadow` or `box-shadow` (or any of these
followed by `-`), preserving every other declaration — layout properties
such as margin, padding, display and sizing, but also `border-color`, which
the code does not strip.  Every declaration of the output passes `keepDecl`,
the output's kept declarations are exactly the input's, and the spec's
example `color:red;margin:4px ↦ margin:4px` holds. -/
theorem stripColorStyles_strips_exactly_colorProps :
    (∀ v : List Char, ∀ x ∈ declsOf (stripColorStylesL v), keepDecl x = true ∨ x = []) ∧
    (∀ v : List Char,
      (declsOf (stripColorStylesL v)).filter keepDecl = (declsOf v).filter keepDecl) ∧
    stripColorStyles "color:red;margin:4px" = "margin:4px" ∧
    keepDecl "margin:4px".data = true ∧
    keepDecl "padding:2px".data = true ∧
    keepDecl "display:flex".data = true ∧
    keepDecl "width:10px".data = true ∧
    keepDecl "border-color:red".data = true ∧
    keepDecl "color:red".data = false ∧
    keepDecl "background-color:blue".data = false ∧
    keepDecl "box-shadow:0 0 2px red".data = false ∧
    keepDecl "text-shadow:1px 1px red".data = false := by
  refine ⟨?_, ?_, by decide, by decide, by decide, by decide, by decide, by decide, by decide,
    by decide, by decide, by decide⟩
  · intro v x hx
    rw [stripColorStylesL_decls v] at hx
    by_cases hemp : ((declsOf v).filter keepDecl).isEmpty
    · rw [if_pos hemp] at hx
      right
      simpa using hx
    · rw [if_neg hemp] at hx
      left
      exact (List.mem_filter.mp hx).2
  · intro v
    rw [stripColorStylesL_decls v]
    by_cases hemp : ((declsOf v).filter keepDecl).isEmpty
    · rw [if_pos hemp]
      rw [List.isEmpty_iff] at hemp
      rw [hemp]
      simp [keepDecl]
    · rw [if_neg hemp]
      rw [List.filter_eq_self]
      intro a ha
      exact (List.mem_filter.mp ha).2

/-- Witness for C7 amended, instantiating the round-trip equation at the
spec's example declaration list. -/
theorem stripColorStyles_strips_exactly_colorProps_witness :
    (declsOf (stripColorStylesL "color:red;margin:4px".data)).filter keepDecl =
      (declsOf "color:red;margin:4px".data).filter keepDecl :=
  stripColorStyles_strips_exactly_colorProps.2.1 "color:red;margin:4px".data

/-! ## C1 — the sanitizer's output carries no executable content -/

theorem sanitizeAttr_eq (a : DomAttr) : sanitizeAttr a =
    (if startsWithS (toLowerS a.name) "on" then none
     else if urlAttrNames.contains (toLowerS a.name) && badUrlValue (toLowerS a.value) then none
     else if toLowerS a.name = "style" then
       if includesS (toLowerS a.value) "expression" ||
           includesS (toLowerS a.value) "javascript" then none
       else if stripColorStyles a.value = "" then none
       else some ⟨"style", stripColorStyles a.value⟩
     else some a) := rfl

theorem attrSafe_style (v : String) : attrSafe ⟨"style", v⟩ = true := by
  unfold attrSafe
  rw [show startsWithS (toLowerS "style") "on" = false from by decide,
    show urlAttrNames.contains (toLowerS "style") = false from by decide]
  simp

theorem sanitizeAttr_safe (a b : DomAttr) (h : sanitizeAttr a = some b) : attrSafe b = true := by
  rw [sanitizeAttr_eq] at h
  split_ifs at h with h1 h2 h3 h4 h5 <;> try exact Option.noConfusion h
  · rw [← Option.some_inj.mp h]
    exact attrSafe_style _
  · rw [← Option.some_inj.mp h]
    unfold attrSafe
    rw [Bool.eq_false_iff.mpr h1]
    rcases Bool.and_eq_false_iff.mp (Bool.eq_false_iff.mpr h2) with hc | hb
    · have hm : toLowerS a.name ∉ urlAttrNames := by simpa using hc
      simp [hm]
    · simp [hb]

theorem sanitizeAttrs_all_safe (attrs : List DomAttr) :
    (sanitizeAttrs attrs).all attrSafe = true := by
  rw [List.all_eq_true]
  intro b hb
  unfold sanitizeAttrs at hb
  rw [List.mem_filterMap] at hb
  obtain ⟨a, _, hfa⟩ := hb
  exact sanitizeAttr_safe a b hfa

theorem removeDangerous_noDang (ns : List Node) :
    noDangerousElems (removeDangerous ns) = true := by
  match ns with
  | [] => simp [removeDangerous, noDangerousElems]
  | .text s :: rest => simpa [removeDangerous, noDangerousElems] using removeDangerous_noDang rest
  | .elem t a c :: rest =>
    by_cases h : t ∈ dangerousTags
    · simpa [removeDangerous, h] using removeDangerous_noDang rest
    · simp [removeDangerous, h, noDangerousElems, removeDangerous_noDang c,
        removeDangerous_noDang rest]

theorem rewriteStyleElems_noDang (ns : List Node) (h : noDangerousElems ns = true) :
    noDangerousElems (rewriteStyleElems ns) = true := by
  match ns with
  | [] => simp [rewriteStyleElems, noDangerousElems]
  | .text s :: rest =>
    rw [show noDangerousElems (Node.text s :: rest) = noDangerousElems rest from by
      simp [noDangerousElems]] at h
    simpa [rewriteStyleElems, noDangerousElems] using rewriteStyleElems_noDang rest h
  | .elem t a c :: rest =>
    simp only [noDangerousElems, Bool.and_eq_true] at h
    have hnd : t ∉ dangerousTags := by simpa using h.1.1
    by_cases hs : t == "style"
    · simp [rewriteStyleElems, hs, noDangerousElems, hnd,
        rewriteStyleElems_noDang rest h.2]
    · simp [rewriteStyleElems, hs, noDangerousElems, hnd,
        rewriteStyleElems_noDang c h.1.2, rewriteStyleElems_noDang rest h.2]

theorem sanitizeAllAttrs_safe (ns : List Node) (h : noDangerousElems ns = true) :
    nodesSafe (sanitizeAllAttrs ns) = true := by
  match ns with
  | [] => simp [sanitizeAllAttrs, nodesSafe]
  | .text s :: rest =>
    rw [show noDangerousElems (Node.text s :: rest) = noDangerousElems rest from by
      simp [noDangerousElems]] at h
    simpa [sanitizeAllAttrs, nodesSafe] using sanitizeAllAttrs_safe rest h
  | .elem t a c :: rest =>
    simp only [noDangerousElems, Bool.and_eq_true] at h
    have hnd : t ∉ dangerousTags := by simpa using h.1.1
    simp [sanitizeAllAttrs, nodesSafe, hnd, sanitizeAttrs_all_safe,
      sanitizeAllAttrs_safe c h.1.2, sanitizeAllAttrs_safe rest h.2]

theorem setAttr_all_safe (attrs : List DomAttr) (n v : String)
    (h : attrs.all attrSafe = true) (hnv : attrSafe ⟨n, v⟩ = true) :
    (setAttr attrs n v).all attrSafe = true := by
  unfold setAttr
  split
  · rw [List.all_eq_true]
    intro x hx
    rw [List.mem_map] at hx
    obtain ⟨y, hy, rfl⟩ := hx
    by_cases hyn : y.name == n
    · simpa [hyn] using hnv
    · simpa [hyn] using List.all_eq_true.mp h y hy
  · rw [List.all_append, h]
    simpa using hnv

theorem retargetLinks_safe (ns : List Node) (h : nodesSafe ns = true) :
    nodesSafe (retargetLinks ns) = true := by
  match ns with
  | [] => simp [retargetLinks, nodesSafe]
  | .text s :: rest =>
    rw [show nodesSafe (Node.text s :: rest) = nodesSafe rest from by simp [nodesSafe]] at h
    simpa [retargetLinks, nodesSafe] using retargetLinks_safe rest h
  | .elem t a c :: rest =>
    simp only [nodesSafe, Bool.and_eq_true] at h
    have hnd : t ∉ dangerousTags := by simpa using h.1.1.1
    by_cases hcond : t == "a" && a.any (fun x => x.name == "href")
    · have hsafe : (setAttr (setAttr a "target" "_blank") "rel" "noopener noreferrer").all
          attrSafe = true :=
        setAttr_all_safe _ _ _ (setAttr_all_safe _ _ _ h.1.1.2 (by decide)) (by decide)
      simp [retargetLinks, hcond, nodesSafe, hnd, hsafe,
        retargetLinks_safe c h.1.2, retargetLinks_safe rest h.2]
    · simp [retargetLinks, hcond, nodesSafe, hnd, h.1.1.2,
        retargetLinks_safe c h.1.2, retargetLinks_safe rest h.2]

/-- C1: for every parsed input document, the output of `sanitizeHtml`
contains no `script`/`iframe`/`object`/`embed`/`form`/`meta`/`base`/`link`/
`svg`/`math` element (nor `input`/`button`), no attribute whose lowercased
name begins with `on`, and no `href`/`src`/`action`/`xlink:href`/
`formaction` attribute whose lowercased value begins with `javascript:`,
`vbscript:`, or a non-image `data:` scheme. -/
theorem sanitizeHtml_output_safe (ns : List Node) : nodesSafe (sanitizeHtml ns) = true :=
  retargetLinks_safe _ (sanitizeAllAttrs_safe _
    (rewriteStyleElems_noDang _ (removeDangerous_noDang ns)))

/-! ## C6 — idempotence machinery: substring transfer through the strip -/

theorem map_intersperse (g : List Char → List Char) (a : List Char) (l : List (List Char)) :
    List.map g (List.intersperse a l) = List.intersperse (g a) (List.map g l) := by
  match l with
  | [] => rfl
  | [x] => rfl
  | x :: y :: zs =>
    rw [List.intersperse_cons₂, List.map_cons, List.map_cons, map_intersperse g a (y :: zs)]
    rfl

theorem map_intercalate (g : Char → Char) (sep : List Char) (ds : List (List Char)) :
    (List.intercalate sep ds).map g = List.intercalate (sep.map g) (ds.map (List.map g)) := by
  unfold List.intercalate
  rw [List.map_flatten, map_intersperse]

/-- Decomposition of an infix of an append: it sits in the left part, in the
right part, or spans the border with a nonempty suffix piece of the left
part and a nonempty prefix piece of the right part. -/
theorem infix_append_split (pat a b : List Char) (h : pat <:+: a ++ b) :
    pat <:+: a ∨ pat <:+: b ∨
      ∃ p₁ p₂, pat = p₁ ++ p₂ ∧ p₁ ≠ [] ∧ p₂ ≠ [] ∧ p₁ <:+ a ∧ p₂ <+: b := by
  obtain ⟨s, t, hst⟩ := h
  rw [List.append_assoc] at hst
  rcases List.append_eq_append_iff.mp hst with ⟨a', ha1, ha2⟩ | ⟨c', _, hc2⟩
  · rcases List.append_eq_append_iff.mp ha2 with ⟨w, hw1, _⟩ | ⟨w, hw1, hw2⟩
    · left
      exact ⟨s, w, by rw [ha1, hw1, List.append_assoc]⟩
    · by_cases hw : w = []
      · subst hw
        left
        rw [List.append_nil] at hw1
        exact ⟨s, [], by rw [ha1, hw1, List.append_nil]⟩
      · by_cases ha' : a' = []
        · subst ha'
          right; left
          rw [List.nil_append] at hw1
          exact ⟨[], t, by simp [hw1, hw2]⟩
        · right; right
          exact ⟨a', w, hw1, ha', hw, ⟨s, ha1.symm⟩, ⟨t, hw2.symm⟩⟩
  · right; left
    exact ⟨c', t, by rw [List.append_assoc]; exact hc2.symm⟩

theorem intercalate_nil_sep (sep : List Char) : List.intercalate sep [] = [] := rfl

/-- A nonempty pattern sharing no character with the (nonempty) separator
that occurs inside a separator-join occurs inside one of the pieces. -/
theorem infix_intercalate_mem (sep pat : List Char) (ds : List (List Char))
    (hne : pat ≠ []) (hdisj : ∀ ch ∈ sep, ch ∉ pat) (hsne : sep ≠ [])
    (h : pat <:+: List.intercalate sep ds) : ∃ d ∈ ds, pat <:+: d := by
  match ds with
  | [] =>
    rw [intercalate_nil_sep] at h
    exact absurd (List.infix_nil.mp h) hne
  | [d] =>
    rw [intercalate_single] at h
    exact ⟨d, List.mem_cons_self d [], h⟩
  | d :: e :: rest =>
    rw [intercalate_cons₂, List.append_assoc] at h
    rcases infix_append_split pat d _ h with h1 | h2 | ⟨p₁, p₂, hp, hp1, hp2, _, hs2⟩
    · exact ⟨d, List.mem_cons_self d _, h1⟩
    · rcases infix_append_split pat sep _ h2 with g1 | g2 | ⟨q₁, q₂, hq, hq1, _, hqs, _⟩
      · exfalso
        cases pat with
        | nil => exact hne rfl
        | cons p ps =>
          exact hdisj p (g1.subset (List.mem_cons_self p ps)) (List.mem_cons_self p ps)
      · obtain ⟨d', hm, hi⟩ := infix_intercalate_mem sep pat (e :: rest) hne hdisj hsne g2
        exact ⟨d', List.mem_cons_of_mem d hm, hi⟩
      · exfalso
        cases q₁ with
        | nil => exact hq1 rfl
        | cons q qs =>
          have hqmem : q ∈ sep := hqs.sublist.subset (List.mem_cons_self q qs)
          have hqpat : q ∈ pat := by
            rw [hq]
            exact List.mem_append.mpr (Or.inl (List.mem_cons_self q qs))
          exact hdisj q hqmem hqpat
    · exfalso
      cases sep with
      | nil => exact hsne rfl
      | cons sh stail =>
        cases p₂ with
        | nil => exact hp2 rfl
        | cons c cs =>
          have hc : c = sh := (List.cons_prefix_cons.mp hs2).1
          have hcpat : c ∈ pat := by
            rw [hp]
            exact List.mem_append.mpr (Or.inr (List.mem_cons_self c cs))
          exact hdisj sh (List.mem_cons_self sh stail) (hc ▸ hcpat)

theorem splitOnCharL_mem_inf (sep : Char) (v c : List Char)
    (hc : c ∈ splitOnCharL sep v) : c <:+: v := by
  obtain ⟨d, ds, hsplit, hpre, hinf, _⟩ := splitOnCharL_spec sep v
  rw [hsplit] at hc
  rcases List.mem_cons.mp hc with rfl | h'
  · exact hpre.isInfix
  · exact hinf c h'

/-- A pattern with no `;` or space that occurs (lowercased) in the output of
`stripColorStyles` already occurred (lowercased) in its input. -/
theorem includes_stripL_transfer (v pat : List Char) (hne : pat ≠ [])
    (hdisj : ∀ ch ∈ [';', ' '], ch ∉ pat)
    (h : pat <:+: toLowerL (stripColorStylesL v)) : pat <:+: toLowerL v := by
  have hstrip : stripColorStylesL v =
      List.intercalate [';', ' '] ((declsOf v).filter keepDecl) := rfl
  rw [hstrip] at h
  rw [show toLowerL (List.intercalate [';', ' '] ((declsOf v).filter keepDecl)) =
      List.intercalate [';', ' '] (((declsOf v).filter keepDecl).map toLowerL) from by
    rw [toLowerL, map_intercalate]
    rfl] at h
  obtain ⟨d', hd', hpd⟩ := infix_intercalate_mem [';', ' '] pat _ hne hdisj (by decide) h
  rw [List.mem_map] at hd'
  obtain ⟨d, hd, rfl⟩ := hd'
  have hdv : d <:+: v := by
    have hd2 := (List.mem_filter.mp hd).1
    rw [declsOf, List.mem_map] at hd2
    obtain ⟨c, hc, rfl⟩ := hd2
    exact (jsTrim_inf c).trans (splitOnCharL_mem_inf ';' v c hc)
  exact hpd.trans (List.IsInfix.map Char.toLower hdv)

theorem stripColorStyles_idem (s : String) :
    stripColorStyles (stripColorStyles s) = stripColorStyles s :=
  congrArg String.mk (stripColorStylesL_idem s.data)

/-! ## C6 — idempotence of the attribute pass -/

theorem includesS_strip_transfer (v pat : String) (hne : pat.data ≠ [])
    (hdisj : ∀ ch ∈ [';', ' '], ch ∉ pat.data)
    (h : includesS (toLowerS (stripColorStyles v)) pat = true) :
    includesS (toLowerS v) pat = true := by
  simp only [includesS, includesL, decide_eq_true_eq] at h ⊢
  exact includes_stripL_transfer v.data pat.data hne hdisj h

/-- A stripped, nonempty style value passes `sanitizeAttr` unchanged. -/
theorem sanitizeAttr_style_fixed (v : String)
    (hx : includesS (toLowerS (stripColorStyles v)) "expression" = false)
    (hj : includesS (toLowerS (stripColorStyles v)) "javascript" = false)
    (hne : ¬stripColorStyles v = "") :
    sanitizeAttr ⟨"style", stripColorStyles v⟩ = some ⟨"style", stripColorStyles v⟩ := by
  simp +decide [sanitizeAttr, hx, hj, stripColorStyles_idem, hne]

/-- Which attributes `sanitizeAttr` can emit: the input itself, or a
rebuilt `style` attribute. -/
theorem sanitizeAttr_name_cases (a b : DomAttr) (h : sanitizeAttr a = some b) :
    b = a ∨ b.name = "style" := by
  rw [sanitizeAttr_eq] at h
  split_ifs at h <;> try exact Option.noConfusion h
  · exact Or.inr (by rw [← Option.some_inj.mp h])
  · exact Or.inl (Option.some_inj.mp h).symm

/-- Every attribute `sanitizeAttr` emits is a fixed point of `sanitizeAttr`. -/
theorem sanitizeAttr_idem (a b : DomAttr) (h : sanitizeAttr a = some b) :
    sanitizeAttr b = some b := by
  rw [sanitizeAttr_eq] at h
  split_ifs at h with h1 h2 h3 h4 h5 <;> try exact Option.noConfusion h
  · have hb := Option.some_inj.mp h
    subst hb
    simp only [Bool.or_eq_true, not_or] at h4
    have hxv : includesS (toLowerS a.value) "expression" = false := Bool.eq_false_iff.mpr h4.1
    have hjv : includesS (toLowerS a.value) "javascript" = false := Bool.eq_false_iff.mpr h4.2
    have hx : includesS (toLowerS (stripColorStyles a.value)) "expression" = false := by
      cases hc : includesS (toLowerS (stripColorStyles a.value)) "expression" with
      | false => rfl
      | true =>
        have hcc := includesS_strip_transfer a.value "expression" (by decide) (by decide) hc
        rw [hxv] at hcc
        exact absurd hcc Bool.false_ne_true
    have hjx : includesS (toLowerS (stripColorStyles a.value)) "javascript" = false := by
      cases hc : includesS (toLowerS (stripColorStyles a.value)) "javascript" with
      | false => rfl
      | true =>
        have hcc := includesS_strip_transfer a.value "javascript" (by decide) (by decide) hc
        rw [hjv] at hcc
        exact absurd hcc Bool.false_ne_true
    exact sanitizeAttr_style_fixed a.value hx hjx h5
  · have hb := Option.some_inj.mp h
    subst hb
    rw [sanitizeAttr_eq, if_neg h1, if_neg h2, if_neg h3]

/-- C6 core: every attribute `sanitizeAttrs` outputs is `attrFixed`. -/
theorem sanitizeAttrs_all_fixed (attrs : List DomAttr) :
    (sanitizeAttrs attrs).all attrFixed = true := by
  rw [List.all_eq_true]
  intro b hb
  unfold sanitizeAttrs at hb
  rw [List.mem_filterMap] at hb
  obtain ⟨a, ha, hfa⟩ := hb
  have hfilter := (List.mem_filter.mp ha).2
  have hidem := sanitizeAttr_idem a b hfa
  have h2 : (!(toLowerS b.name == "bgcolor") && !(toLowerS b.name == "color")) = true := by
    rcases sanitizeAttr_name_cases a b hfa with rfl | hst
    · exact hfilter
    · rw [hst]; decide
  unfold attrFixed
  rw [hidem]
  simp only [Bool.and_eq_true] at h2 ⊢
  exact ⟨⟨by simp, h2.1⟩, h2.2⟩

theorem filterMap_sanitizeAttr_id (attrs : List DomAttr)
    (h : ∀ a ∈ attrs, sanitizeAttr a = some a) :
    attrs.filterMap sanitizeAttr = attrs := by
  induction attrs with
  | nil => rfl
  | cons a rest ih =>
    rw [List.filterMap_cons_some (h a (List.mem_cons_self a rest)),
      ih fun x hx => h x (List.mem_cons_of_mem a hx)]

/-- `sanitizeAttrs` is the identity on attribute lists that are already
sanitized. -/
theorem sanitizeAttrs_id_of_fixed (attrs : List DomAttr) (h : attrs.all attrFixed = true) :
    sanitizeAttrs attrs = attrs := by
  rw [List.all_eq_true] at h
  have h' : ∀ a ∈ attrs, sanitizeAttr a = some a := fun a ha => by
    have h2 := h a ha
    unfold attrFixed at h2
    simp only [Bool.and_eq_true] at h2
    exact eq_of_beq h2.1.1
  have hf : (attrs.filter fun a =>
      !(toLowerS a.name == "bgcolor") && !(toLowerS a.name == "color")) = attrs := by
    rw [List.filter_eq_self]
    intro a ha
    have h2 := h a ha
    unfold attrFixed at h2
    simp only [Bool.and_eq_true] at h2
    rw [h2.1.2, h2.2]
    rfl
  unfold sanitizeAttrs
  rw [hf]
  exact filterMap_sanitizeAttr_id attrs h'

/-! ## C6 — the `setAttr` algebra of the link-retargeting pass -/

theorem any_congr_mem {α : Type _} (l : List α) (p q : α → Bool)
    (h : ∀ x ∈ l, p x = q x) : l.any p = l.any q := by
  induction l with
  | nil => rfl
  | cons a rest ih =>
    simp only [List.any_cons, h a (List.mem_cons_self a rest)]
    rw [ih fun x hx => h x (List.mem_cons_of_mem a hx)]

/-- Membership after `setAttr`: the written pair, or an untouched original
attribute with a different name. -/
theorem mem_setAttr (l : List DomAttr) (n v : String) (x : DomAttr)
    (hx : x ∈ setAttr l n v) : x = ⟨n, v⟩ ∨ (x ∈ l ∧ x.name ≠ n) := by
  unfold setAttr at hx
  split at hx
  · next hany =>
    rw [List.mem_map] at hx
    obtain ⟨y, hy, hxy⟩ := hx
    by_cases hyn : (y.name == n) = true
    · left
      rw [if_pos hyn] at hxy
      exact hxy.symm
    · right
      rw [if_neg hyn] at hxy
      subst hxy
      exact ⟨hy, by simpa using hyn⟩
  · next hany =>
    rw [List.mem_append] at hx
    rcases hx with hmem | hone
    · right
      refine ⟨hmem, ?_⟩
      simp only [List.any_eq_true, not_exists] at hany
      intro hn
      exact hany x ⟨hmem, by simp [hn]⟩
    · left
      simpa using hone

/-- After `setAttr l n v`, an attribute named `n` is present. -/
theorem setAttr_any_self (l : List DomAttr) (n v : String) :
    (setAttr l n v).any (fun a => a.name == n) = true := by
  unfold setAttr
  split
  · next hany =>
    rw [List.any_eq_true] at hany ⊢
    obtain ⟨a, ha, hn⟩ := hany
    refine ⟨⟨n, v⟩, ?_, by simp⟩
    rw [List.mem_map]
    exact ⟨a, ha, by simp [hn]⟩
  · next hany =>
    rw [List.any_append]
    simp

/-- `setAttr` at name `n` does not change presence of a different name `m`. -/
theorem setAttr_any_ne (l : List DomAttr) (n v m : String) (hnm : n ≠ m) :
    (setAttr l n v).any (fun a => a.name == m) = l.any (fun a => a.name == m) := by
  unfold setAttr
  split
  · rw [List.any_map]
    apply any_congr_mem
    intro a _
    by_cases hyn : (a.name == n) = true
    · have han : a.name = n := by simpa using hyn
      simp [Function.comp, hyn, hnm, han]
    · simp [Function.comp, hyn]
  · rw [List.any_append]
    simp [hnm]

/-- `setAttr` is the identity when every attribute named `n` already holds
value `v` and some attribute named `n` is present. -/
theorem setAttr_already (l : List DomAttr) (n v : String)
    (hmem : l.any (fun a => a.name == n) = true)
    (hall : ∀ a ∈ l, a.name = n → a = ⟨n, v⟩) :
    setAttr l n v = l := by
  have hmap : (l.map fun a => if a.name == n then (⟨n, v⟩ : DomAttr) else a) = l.map id := by
    apply List.map_congr_left
    intro a ha
    by_cases hyn : (a.name == n) = true
    · rw [if_pos hyn]
      exact (hall a ha (by simpa using hyn)).symm
    · rw [if_neg hyn]
      rfl
  unfold setAttr
  rw [if_pos hmem, hmap, List.map_id]

/-- Every attribute named `n` after `setAttr l n v` is exactly `⟨n, v⟩`. -/
theorem setAttr_entries_self (l : List DomAttr) (n v : String) (x : DomAttr)
    (hx : x ∈ setAttr l n v) (hn : x.name = n) : x = ⟨n, v⟩ := by
  rcases mem_setAttr l n v x hx with h | h
  · exact h
  · exact absurd hn h.2

/-- Re-running the target/rel pair of `setAttr` writes is the identity. -/
theorem setAttr_pair_idem (l : List DomAttr) (n₁ v₁ n₂ v₂ : String) (h12 : n₁ ≠ n₂) :
    setAttr (setAttr (setAttr (setAttr l n₁ v₁) n₂ v₂) n₁ v₁) n₂ v₂ =
      setAttr (setAttr l n₁ v₁) n₂ v₂ := by
  have h1 : setAttr (setAttr (setAttr l n₁ v₁) n₂ v₂) n₁ v₁ =
      setAttr (setAttr l n₁ v₁) n₂ v₂ := by
    apply setAttr_already
    · rw [setAttr_any_ne (setAttr l n₁ v₁) n₂ v₂ n₁ (Ne.symm h12)]
      exact setAttr_any_self l n₁ v₁
    · intro x hx hxn
      rcases mem_setAttr (setAttr l n₁ v₁) n₂ v₂ x hx with rfl | ⟨hxB, _⟩
      · exact absurd hxn (Ne.symm h12)
      · exact setAttr_entries_self l n₁ v₁ x hxB hxn
  rw [h1]
  apply setAttr_already
  · exact setAttr_any_self (setAttr l n₁ v₁) n₂ v₂
  · intro x hx hxn
    exact setAttr_entries_self (setAttr l n₁ v₁) n₂ v₂ x hx hxn

/-- `setAttr` preserves an all-attributes predicate that holds of the new
pair (generic form of the safety-preservation lemma). -/
theorem setAttr_all_pred (p : DomAttr → Bool) (l : List DomAttr) (n v : String)
    (h : l.all p = true) (hnv : p ⟨n, v⟩ = true) :
    (setAttr l n v).all p = true := by
  rw [List.all_eq_true] at h ⊢
  intro x hx
  rcases mem_setAttr l n v x hx with rfl | ⟨hmem, _⟩
  · exact hnv
  · exact h x hmem

/-! ## C6 — the tree passes on already-sanitized trees -/

theorem removeDangerous_id_of_noDang (ns : List Node) (h : noDangerousElems ns = true) :
    removeDangerous ns = ns := by
  match ns with
  | [] => simp [removeDangerous]
  | .text s :: rest =>
    rw [show noDangerousElems (Node.text s :: rest) = noDangerousElems rest from by
      simp [noDangerousElems]] at h
    simp [removeDangerous, removeDangerous_id_of_noDang rest h]
  | .elem t a c :: rest =>
    simp only [noDangerousElems, Bool.and_eq_true] at h
    have hnd : t ∉ dangerousTags := by simpa using h.1.1
    simp [removeDangerous, hnd, removeDangerous_id_of_noDang c h.1.2,
      removeDangerous_id_of_noDang rest h.2]

theorem removeDangerous_noStyle (ns : List Node) (h : noStyleElems ns = true) :
    noStyleElems (removeDangerous ns) = true := by
  match ns with
  | [] => simp [removeDangerous, noStyleElems]
  | .text s :: rest =>
    rw [show noStyleElems (Node.text s :: rest) = noStyleElems rest from by
      simp [noStyleElems]] at h
    simpa [removeDangerous, noStyleElems] using removeDangerous_noStyle rest h
  | .elem t a c :: rest =>
    simp only [noStyleElems, Bool.and_eq_true] at h
    have hs : (t == "style") = false := by simpa using h.1.1
    by_cases hd : t ∈ dangerousTags
    · simpa [removeDangerous, hd] using removeDangerous_noStyle rest h.2
    · simp [removeDangerous, hd, noStyleElems, hs, removeDangerous_noStyle c h.1.2,
        removeDangerous_noStyle rest h.2]

theorem rewriteStyle_id_of_noStyle (ns : List Node) (h : noStyleElems ns = true) :
    rewriteStyleElems ns = ns := by
  match ns with
  | [] => simp [rewriteStyleElems]
  | .text s :: rest =>
    rw [show noStyleElems (Node.text s :: rest) = noStyleElems rest from by
      simp [noStyleElems]] at h
    simp [rewriteStyleElems, rewriteStyle_id_of_noStyle rest h]
  | .elem t a c :: rest =>
    simp only [noStyleElems, Bool.and_eq_true] at h
    have hs : (t == "style") = false := by simpa using h.1.1
    simp [rewriteStyleElems, hs, rewriteStyle_id_of_noStyle c h.1.2,
      rewriteStyle_id_of_noStyle rest h.2]

theorem sanitizeAllAttrs_noDang (ns : List Node) (h : noDangerousElems ns = true) :
    noDangerousElems (sanitizeAllAttrs ns) = true := by
  match ns with
  | [] => simp [sanitizeAllAttrs, noDangerousElems]
  | .text s :: rest =>
    rw [show noDangerousElems (Node.text s :: rest) = noDangerousElems rest from by
      simp [noDangerousElems]] at h
    simpa [sanitizeAllAttrs, noDangerousElems] using sanitizeAllAttrs_noDang rest h
  | .elem t a c :: rest =>
    simp only [noDangerousElems, Bool.and_eq_true] at h
    have hnd : t ∉ dangerousTags := by simpa using h.1.1
    simp [sanitizeAllAttrs, noDangerousElems, hnd, sanitizeAllAttrs_noDang c h.1.2,
      sanitizeAllAttrs_noDang rest h.2]

theorem sanitizeAllAttrs_noStyle (ns : List Node) (h : noStyleElems ns = true) :
    noStyleElems (sanitizeAllAttrs ns) = true := by
  match ns with
  | [] => simp [sanitizeAllAttrs, noStyleElems]
  | .text s :: rest =>
    rw [show noStyleElems (Node.text s :: rest) = noStyleElems rest from by
      simp [noStyleElems]] at h
    simpa [sanitizeAllAttrs, noStyleElems] using sanitizeAllAttrs_noStyle rest h
  | .elem t a c :: rest =>
    simp only [noStyleElems, Bool.and_eq_true] at h
    have hs : (t == "style") = false := by simpa using h.1.1
    simp [sanitizeAllAttrs, noStyleElems, hs, sanitizeAllAttrs_noStyle c h.1.2,
      sanitizeAllAttrs_noStyle rest h.2]

theorem sanitizeAllAttrs_attrsSanitized (ns : List Node) :
    attrsSanitized (sanitizeAllAttrs ns) = true := by
  match ns with
  | [] => simp [sanitizeAllAttrs, attrsSanitized]
  | .text s :: rest =>
    simpa [sanitizeAllAttrs, attrsSanitized] using sanitizeAllAttrs_attrsSanitized rest
  | .elem t a c :: rest =>
    simp [sanitizeAllAttrs, attrsSanitized, sanitizeAttrs_all_fixed a,
      sanitizeAllAttrs_attrsSanitized c, sanitizeAllAttrs_attrsSanitized rest]

theorem sanitizeAllAttrs_id_of_attrsSanitized (ns : List Node)
    (h : attrsSanitized ns = true) : sanitizeAllAttrs ns = ns := by
  match ns with
  | [] => simp [sanitizeAllAttrs]
  | .text s :: rest =>
    rw [show attrsSanitized (Node.text s :: rest) = attrsSanitized rest from by
      simp [attrsSanitized]] at h
    simp [sanitizeAllAttrs, sanitizeAllAttrs_id_of_attrsSanitized rest h]
  | .elem t a c :: rest =>
    simp only [attrsSanitized, Bool.and_eq_true] at h
    simp [sanitizeAllAttrs, sanitizeAttrs_id_of_fixed a h.1.1,
      sanitizeAllAttrs_id_of_attrsSanitized c h.1.2,
      sanitizeAllAttrs_id_of_attrsSanitized rest h.2]

theorem retargetLinks_noDang (ns : List Node) (h : noDangerousElems ns = true) :
    noDangerousElems (retargetLinks ns) = true := by
  match ns with
  | [] => simp [retargetLinks, noDangerousElems]
  | .text s :: rest =>
    rw [show noDangerousElems (Node.text s :: rest) = noDangerousElems rest from by
      simp [noDangerousElems]] at h
    simpa [retargetLinks, noDangerousElems] using retargetLinks_noDang rest h
  | .elem t a c :: rest =>
    simp only [noDangerousElems, Bool.and_eq_true] at h
    have hnd : t ∉ dangerousTags := by simpa using h.1.1
    simp [retargetLinks, noDangerousElems, hnd, retargetLinks_noDang c h.1.2,
      retargetLinks_noDang rest h.2]

theorem retargetLinks_noStyle (ns : List Node) (h : noStyleElems ns = true) :
    noStyleElems (retargetLinks ns) = true := by
  match ns with
  | [] => simp [retargetLinks, noStyleElems]
  | .text s :: rest =>
    rw [show noStyleElems (Node.text s :: rest) = noStyleElems rest from by
      simp [noStyleElems]] at h
    simpa [retargetLinks, noStyleElems] using retargetLinks_noStyle rest h
  | .elem t a c :: rest =>
    simp only [noStyleElems, Bool.and_eq_true] at h
    have hs : (t == "style") = false := by simpa using h.1.1
    simp [retargetLinks, noStyleElems, hs, retargetLinks_noStyle c h.1.2,
      retargetLinks_noStyle rest h.2]

theorem retargetLinks_attrsSanitized (ns : List Node) (h : attrsSanitized ns = true) :
    attrsSanitized (retargetLinks ns) = true := by
  match ns with
  | [] => simp [retargetLinks, attrsSanitized]
  | .text s :: rest =>
    rw [show attrsSanitized (Node.text s :: rest) = attrsSanitized rest from by
      simp [attrsSanitized]] at h
    simpa [retargetLinks, attrsSanitized] using retargetLinks_attrsSanitized rest h
  | .elem t a c :: rest =>
    simp only [attrsSanitized, Bool.and_eq_true] at h
    by_cases hcond : (t == "a" && a.any fun x => x.name == "href") = true
    · have hA : (setAttr (setAttr a "target" "_blank") "rel" "noopener noreferrer").all
          attrFixed = true :=
        setAttr_all_pred _ _ _ _ (setAttr_all_pred _ _ _ _ h.1.1 (by decide)) (by decide)
      simp [retargetLinks, hcond, attrsSanitized, hA, retargetLinks_attrsSanitized c h.1.2,
        retargetLinks_attrsSanitized rest h.2]
    · simp [retargetLinks, hcond, attrsSanitized, h.1.1, retargetLinks_attrsSanitized c h.1.2,
        retargetLinks_attrsSanitized rest h.2]

theorem retargetLinks_idem (ns : List Node) :
    retargetLinks (retargetLinks ns) = retargetLinks ns := by
  match ns with
  | [] => simp [retargetLinks]
  | .text s :: rest => simp [retargetLinks, retargetLinks_idem rest]
  | .elem t a c :: rest =>
    by_cases hcond : (t == "a" && a.any fun x => x.name == "href") = true
    · have hta : (t == "a") = true := by
        have h2 := hcond
        rw [Bool.and_eq_true] at h2
        exact h2.1
      have hhref : a.any (fun x => x.name == "href") = true := by
        have h2 := hcond
        rw [Bool.and_eq_true] at h2
        exact h2.2
      have hhref2 : (setAttr (setAttr a "target" "_blank") "rel" "noopener noreferrer").any
          (fun x => x.name == "href") = true := by
        rw [setAttr_any_ne _ _ _ _ (by decide), setAttr_any_ne _ _ _ _ (by decide)]
        exact hhref
      simp [retargetLinks, hcond, hta, hhref, hhref2, retargetLinks_idem c,
        retargetLinks_idem rest,
        setAttr_pair_idem a "target" "_blank" "rel" "noopener noreferrer" (by decide)]
    · simp [retargetLinks, hcond, retargetLinks_idem c, retargetLinks_idem rest]

/-! ## C6 — the verdict on sanitizer idempotence -/

/-- C6 counterexample: on `<style>p{color:red}</style>` the first
`sanitizeHtml` scopes the rule to `#email-body p`, and the second run
prefixes `#email-body` again, so the sanitizer is not idempotent. -/
theorem sanitizeHtml_not_idempotent :
    sanitizeHtml (sanitizeHtml styleRuleDoc) ≠ sanitizeHtml styleRuleDoc := by
  intro hEq
  have h1 : styleTexts (sanitizeHtml styleRuleDoc) = ["#email-body p \x7bcolor:red\x7d"] := by
    simp +decide [sanitizeHtml, styleRuleDoc, removeDangerous, rewriteStyleElems,
      sanitizeAllAttrs, retargetLinks, textContentOf, styleTexts, sanitizeAttrs]
  have h2 : styleTexts (sanitizeHtml (sanitizeHtml styleRuleDoc)) =
      ["#email-body #email-body p \x7bcolor:red\x7d"] := by
    simp +decide [sanitizeHtml, styleRuleDoc, removeDangerous, rewriteStyleElems,
      sanitizeAllAttrs, retargetLinks, textContentOf, styleTexts, sanitizeAttrs]
  rw [hEq, h1] at h2
  exact absurd h2 (by decide)

/-- C6 amended: `sanitizeHtml` is idempotent on every document containing no
`<style>` element (in particular for script tags, event-handler attributes,
`javascript:`/`data:` URLs and inline styles); a `<style>` block breaks
idempotence because the selector re-scoping prefixes `#email-body` on every
run. -/
theorem sanitizeHtml_idempotent_no_style (ns : List Node) (h : noStyleElems ns = true) :
    sanitizeHtml (sanitizeHtml ns) = sanitizeHtml ns := by
  have hdY := removeDangerous_noDang ns
  have hsY := removeDangerous_noStyle ns h
  have hXY := rewriteStyle_id_of_noStyle _ hsY
  have hZ := sanitizeAllAttrs_attrsSanitized (removeDangerous ns)
  have hdZ := sanitizeAllAttrs_noDang _ hdY
  have hsZ := sanitizeAllAttrs_noStyle _ hsY
  have hS1 : sanitizeHtml ns = retargetLinks (sanitizeAllAttrs (removeDangerous ns)) := by
    unfold sanitizeHtml
    rw [hXY]
  have hSd := retargetLinks_noDang _ hdZ
  have hSs := retargetLinks_noStyle _ hsZ
  have hSa := retargetLinks_attrsSanitized _ hZ
  rw [hS1]
  unfold sanitizeHtml
  rw [removeDangerous_id_of_noDang _ hSd, rewriteStyle_id_of_noStyle _ hSs,
    sanitizeAllAttrs_id_of_attrsSanitized _ hSa, retargetLinks_idem]

/-- Witness for the amended C6 at a one-paragraph document. -/
theorem sanitizeHtml_idempotent_no_style_witness :
    noStyleElems [Node.elem "p" [] [Node.text "x"]] = true ∧
      sanitizeHtml (sanitizeHtml [Node.elem "p" [] [Node.text "x"]]) =
        sanitizeHtml [Node.elem "p" [] [Node.text "x"]] :=
  ⟨by simp +decide [noStyleElems],
    sanitizeHtml_idempotent_no_style _ (by simp +decide [noStyleElems])⟩

end Supervillain
